import Mathlib

/-!
# Keystone Redactor Framework — verification of the placeholder-mapping engine

A shallow embedding of the redaction/restoration core of the repository:

* `PyStr` — the Python string primitives the code uses (`in`, `str.replace`,
  slicing), modelled on `List Char` (a Python `str` is its list of characters);
* `PySort` — Python's stable `sorted` (stable insertion sort with a strict
  "stays-before" test, which computes the same list as any stable sort);
* `PIIDetector.deduplicate_and_sort_entities` — from `redactor/detector.py`;
* `Redactor.redact` — from `redactor/redactor.py`;
* `Restorer.restore` — from `redactor/restorer.py`;
* `ImageRedactor` — from `redactor/image/redactor.py`, with the PIL drawing
  capability represented as a list of emitted drawing operations;
* `ImageDetector` placeholder generation — from `redactor/image/detector.py`.

Entity positions come from detector character offsets and are therefore
natural numbers; Python slicing `t[:a]`/`t[b:]` on naturals is `take`/`drop`
(both clamp past the end exactly as Python does).
-/

def strL (s : String) : List Char := s.data

/-! ## Python string primitives -/

namespace PyStr

/-- Python's substring test `pat in s`.  (`"" in s` is `True` in Python.) -/
def isSubstr (pat : List Char) : List Char → Bool
  | [] => pat.isEmpty
  | c :: cs => pat.isPrefixOf (c :: cs) || isSubstr pat cs

/-- The scanning loop of Python's `str.replace` for a non-empty pattern,
written with explicit fuel so that it is structurally recursive (and hence
evaluates inside the kernel); each step consumes at least one character, so
`s.length` fuel always suffices.  See `replaceCore`. -/
def replaceFuel (old new : List Char) : Nat → List Char → List Char
  | _, [] => []
  | 0, s => s
  | fuel + 1, c :: cs =>
      if old ≠ [] ∧ old.isPrefixOf (c :: cs) then
        new ++ replaceFuel old new fuel ((c :: cs).drop old.length)
      else c :: replaceFuel old new fuel cs

/-- The scanning loop of Python's `str.replace` for a non-empty pattern:
left-to-right, replace each non-overlapping occurrence, continue after it. -/
def replaceCore (old new : List Char) (s : List Char) : List Char :=
  replaceFuel old new s.length s

theorem replaceFuel_congr (old new : List Char) :
    ∀ (f₁ f₂ : Nat) (s : List Char), s.length ≤ f₁ → s.length ≤ f₂ →
      replaceFuel old new f₁ s = replaceFuel old new f₂ s := by
  intro f₁
  induction f₁ with
  | zero =>
    intro f₂ s h₁ _
    rcases s with _ | ⟨c, cs⟩
    · rcases f₂ with _ | g <;> rfl
    · simp at h₁
  | succ g₁ ih =>
    intro f₂ s h₁ h₂
    rcases s with _ | ⟨c, cs⟩
    · rcases f₂ with _ | g <;> rfl
    · rcases f₂ with _ | g₂
      · simp at h₂
      · simp only [replaceFuel]
        by_cases h : old ≠ [] ∧ old.isPrefixOf (c :: cs)
        · have hol : 1 ≤ old.length := List.length_pos.mpr h.1
          rw [if_pos h, if_pos h,
            ih g₂ ((c :: cs).drop old.length)
              (by simp only [List.length_drop, List.length_cons] at *; omega)
              (by simp only [List.length_drop, List.length_cons] at *; omega)]
        · rw [if_neg h, if_neg h, ih g₂ cs (by simpa using h₁) (by simpa using h₂)]

/-- The clean unfolding equation of `replaceCore` on a `cons`. -/
theorem replaceCore_cons (old new : List Char) (c : Char) (cs : List Char) :
    replaceCore old new (c :: cs) =
      if old ≠ [] ∧ old.isPrefixOf (c :: cs) then
        new ++ replaceCore old new ((c :: cs).drop old.length)
      else c :: replaceCore old new cs := by
  show replaceFuel old new (cs.length + 1) (c :: cs) = _
  simp only [replaceFuel]
  by_cases h : old ≠ [] ∧ old.isPrefixOf (c :: cs)
  · have hol : 1 ≤ old.length := List.length_pos.mpr h.1
    rw [if_pos h, if_pos h]
    unfold replaceCore
    rw [replaceFuel_congr old new cs.length ((c :: cs).drop old.length).length
        ((c :: cs).drop old.length)
        (by simp only [List.length_drop, List.length_cons]; omega) (le_refl _)]
  · rw [if_neg h, if_neg h]
    rfl

theorem replaceCore_nil (old new : List Char) : replaceCore old new [] = [] := rfl

/-- Python's `s.replace("", new)` inserts `new` before every character and at
the end. -/
def interleave (new : List Char) : List Char → List Char
  | [] => new
  | c :: cs => new ++ c :: interleave new cs

/-- Python's `s.replace(old, new)` (all occurrences). -/
def replace (s old new : List Char) : List Char :=
  if old = [] then interleave new s else replaceCore old new s

end PyStr

/-! ## Python's stable sort -/

namespace PySort

/-- Insert `a` into `l`, keeping an existing element `b` in front of `a`
exactly when `stays b a` holds (for a stable sort, `stays` is the strict
"key of `b` precedes key of `a`" test, so that on equal keys the earlier
original element `a` lands in front). -/
def insertBy (stays : α → α → Bool) (a : α) : List α → List α
  | [] => [a]
  | b :: bs => if stays b a then b :: insertBy stays a bs else a :: b :: bs

/-- Stable insertion sort; computes the same list as Python's stable
`sorted` for the corresponding key comparison. -/
def sortBy (stays : α → α → Bool) : List α → List α
  | [] => []
  | a :: as => insertBy stays a (sortBy stays as)

end PySort

/-! ## Entities of the text pipeline (`detector.py` / `redactor.py`)

The detectors emit dictionaries `{"entity": value, "label": tag,
"start": i, "end": j}`; this structure is that dictionary. -/

structure PyEntity where
  entity : List Char
  label : List Char
  start : Nat
  «end» : Nat
deriving DecidableEq

/-! ## `PIIDetector._deduplicate_and_sort_entities` (`detector.py`) -/

namespace PIIDetector

/-- `sorted(entities, key=lambda e: (e['start'], -e['end']))`: the strict
"stays-before" test of the key `(start ascending, end descending)`. -/
def keyLt (a b : PyEntity) : Bool :=
  a.start < b.start || (a.start == b.start && b.«end» < a.«end»)

/-- The scan of `_deduplicate_and_sort_entities`: `last_end` starts at `-1`;
an entity is skipped when `end <= last_end` or `start < last_end`. -/
def dedupScan : List PyEntity → Int → List PyEntity
  | [], _ => []
  | e :: rest, last_end =>
      if (e.«end» : Int) ≤ last_end then dedupScan rest last_end
      else if (e.start : Int) < last_end then dedupScan rest last_end
      else e :: dedupScan rest (e.«end» : Int)

/-- `PIIDetector._deduplicate_and_sort_entities`. -/
def deduplicate_and_sort_entities (entities : List PyEntity) : List PyEntity :=
  if entities = [] then []
  else dedupScan (PySort.sortBy keyLt entities) (-1)

end PIIDetector

/-! ## `Redactor` (`redactor.py`) -/

/-- Insertion into a Python `dict` modelled as an association list: an
existing key is overwritten in place, a new key is appended.  `dict`
iteration order is insertion order, i.e. list order here. -/
def dictInsert {V : Type} (m : List (List Char × V)) (k : List Char) (v : V) :
    List (List Char × V) :=
  if m.any (fun kv => kv.1 = k) then
    m.map (fun kv => if kv.1 = k then (k, v) else kv)
  else m ++ [(k, v)]

namespace Redactor

/-- `Redactor._generate_placeholder_id`: `chr(ord('A') + count)` below 26,
`str(count)` from 26 on. -/
def generate_placeholder_id (count : Nat) : List Char :=
  if count < 26 then [Char.ofNat ('A'.toNat + count)] else Nat.toDigits 10 count

/-- The placeholder string `f"[{label}_{placeholder_id}]"`. -/
def placeholderOf (label : List Char) (count : Nat) : List Char :=
  '[' :: label ++ '_' :: generate_placeholder_id count ++ [']']

/-- The loop state of `Redactor.redact`: the text being rewritten, the
placeholder map (a `dict`), and the per-label counter (`defaultdict(int)`). -/
structure RedactState where
  redacted_text : List Char
  placeholder_map : List (List Char × List Char)
  label_counts : List Char → Nat

/-- One iteration of the loop of `Redactor.redact`. -/
def redactStep (st : RedactState) (e : PyEntity) : RedactState :=
  let placeholder := placeholderOf e.label (st.label_counts e.label)
  { redacted_text :=
      st.redacted_text.take e.start ++ placeholder ++ st.redacted_text.drop e.«end»,
    placeholder_map := dictInsert st.placeholder_map placeholder e.entity,
    label_counts := fun l => if l = e.label then st.label_counts l + 1 else st.label_counts l }

/-- `Redactor.redact`.  Note `if labels_to_redact:` — an *empty* supplied
list is falsy in Python, so it behaves like `None` (no filtering). -/
def redact (text : List Char) (entities : List PyEntity)
    (labels_to_redact : Option (List (List Char))) :
    List Char × List (List Char × List Char) :=
  let entities_to_process : List PyEntity :=
    match labels_to_redact with
    | some ls => if ls = [] then entities
                 else entities.filter (fun e => decide (e.label ∈ ls))
    | none => entities
  let sorted_entities := PySort.sortBy (fun a b => b.start < a.start) entities_to_process
  let st := sorted_entities.foldl redactStep ⟨text, [], fun _ => 0⟩
  (st.redacted_text, st.placeholder_map)

end Redactor

/-! ## `Restorer` (`restorer.py`) -/

namespace Restorer

/-- One iteration of the loop of `Restorer.restore`: replace all occurrences
when `placeholder in restored_text`, otherwise leave the text alone. -/
def restoreStep (restored_text : List Char) (pv : List Char × List Char) : List Char :=
  if PyStr.isSubstr pv.1 restored_text then PyStr.replace restored_text pv.1 pv.2
  else restored_text

/-- `Restorer.restore`: iterate over the map in insertion order. -/
def restore (llm_output : List Char)
    (placeholder_map : List (List Char × List Char)) : List Char :=
  placeholder_map.foldl restoreStep llm_output

/-- `Restorer.restore` together with the placeholders reported by its
`else` branch (`logging.warning(... was not found in the LLM output ...)`),
i.e. the entries observed as absent at the moment they are processed. -/
def restoreReport (llm_output : List Char)
    (placeholder_map : List (List Char × List Char)) :
    List Char × List (List Char) :=
  placeholder_map.foldl
    (fun acc pv =>
      if PyStr.isSubstr pv.1 acc.1 then (PyStr.replace acc.1 pv.1 pv.2, acc.2)
      else (acc.1, acc.2 ++ [pv.1]))
    (llm_output, [])

end Restorer

/-! ## The shared data model (`base/entities.py`)

`confidence` is a Python float; no claim depends on float rounding, so it is
modelled as a rational.  The open `metadata` dictionary carries arbitrary
payloads that no claim constrains, and is omitted. -/

/-- A pixel box `(x1, y1, x2, y2)`; border drawing subtracts the border
width, so coordinates are integers. -/
structure BBox where
  x1 : Int
  y1 : Int
  x2 : Int
  y2 : Int
deriving DecidableEq

/-- `entities.Entity`. -/
structure Entity where
  type : List Char
  placeholder : List Char
  confidence : ℚ
  modality : List Char
  original_text : Option (List Char) := none
  bbox : Option BBox := none
  timestamp : Option (ℚ × ℚ) := none
deriving DecidableEq

/-- `entities.Mapping`: one record per emitted placeholder, with the
`restorable` policy flag. -/
structure Mapping where
  placeholder : List Char
  entity : Entity
  restorable : Bool
deriving DecidableEq

/-! ## `ImageRedactor` (`image/redactor.py`)

The PIL drawing primitives (`ImageDraw.rectangle`, `ImageDraw.text`) are the
out-of-scope capability "fill rectangle, draw centered text"; a redacted
image is therefore represented as the loaded image together with the list of
drawing operations performed on it, in order. -/

/-- One PIL drawing call. -/
inductive DrawOp where
  | rect (bbox : BBox) (fill : List Char)
  | txt (cx cy : ℚ) (s : List Char)
deriving DecidableEq

/-- Constructor configuration of `ImageRedactor`. -/
structure ImageRedactorConfig where
  draw_borders : Bool := true
  border_color : List Char := strL "red"
  border_width : Int := 2
deriving DecidableEq

namespace ImageRedactor

/-- `ImageRedactor._draw_blackout_box`: optional border rectangle (inset
outward by `border_width`) first, then the opaque black fill. -/
def draw_blackout_box (cfg : ImageRedactorConfig) (bbox : BBox) : List DrawOp :=
  (if cfg.draw_borders then
    [DrawOp.rect ⟨bbox.x1 - cfg.border_width, bbox.y1 - cfg.border_width,
                  bbox.x2 + cfg.border_width, bbox.y2 + cfg.border_width⟩
       cfg.border_color]
  else []) ++ [DrawOp.rect bbox (strL "black")]

/-- `ImageRedactor._draw_label_text`: skip (only a logged warning) when the
box is below the legibility threshold, else draw the label centred. -/
def draw_label_text (bbox : BBox) (text : List Char) : List DrawOp :=
  if bbox.x2 - bbox.x1 < 10 ∨ bbox.y2 - bbox.y1 < 10 then []
  else [DrawOp.txt (((bbox.x1 : ℚ) + bbox.x2) / 2) (((bbox.y1 : ℚ) + bbox.y2) / 2) text]

/-- The mapping value built for one redacted image entity (the wall-clock
`redacted_at` timestamp and the open `metadata` payload are omitted). -/
structure MapEntry where
  placeholder : List Char
  original_type : List Char
  bbox : BBox
  confidence : ℚ
  modality : List Char
  original_text : Option (List Char)
deriving DecidableEq

/-- The drawing operations the loop of `ImageRedactor.redact` performs for
one entity: nothing when the bounding box is missing (logged skip), else
blackout box then label text. -/
def entityOps (cfg : ImageRedactorConfig) (e : Entity) : List DrawOp :=
  match e.bbox with
  | none => []
  | some b => draw_blackout_box cfg b ++ draw_label_text b e.placeholder

/-- The mapping entry the loop of `ImageRedactor.redact` records for one
entity (none when the bounding box is missing). -/
def entityEntry (e : Entity) : Option (List Char × MapEntry) :=
  e.bbox.map fun b =>
    (e.placeholder,
     ⟨e.placeholder, e.type, b, e.confidence, strL "image", e.original_text⟩)

/-- The loop body of `ImageRedactor.redact`. -/
def redactLoop (cfg : ImageRedactorConfig)
    (acc : List DrawOp × List (List Char × MapEntry)) (e : Entity) :
    List DrawOp × List (List Char × MapEntry) :=
  match e.bbox with
  | none => acc
  | some b =>
      (acc.1 ++ draw_blackout_box cfg b ++ draw_label_text b e.placeholder,
       dictInsert acc.2 e.placeholder
         ⟨e.placeholder, e.type, b, e.confidence, strL "image", e.original_text⟩)

/-- `ImageRedactor.redact`.  `loaded = none` models `Image.open` raising
(file missing or unreadable); with a loaded image and an empty entity list
the unmodified image and an empty mapping are returned. -/
def redact {Img : Type} (cfg : ImageRedactorConfig) (loaded : Option Img)
    (entities : List Entity) :
    Except (List Char) (Img × List DrawOp × List (List Char × MapEntry)) :=
  match loaded with
  | none => Except.error (strL "InputError: image file not found or invalid")
  | some image =>
      if entities = [] then Except.ok (image, [], [])
      else
        let (ops, mapping) := entities.foldl (redactLoop cfg) ([], [])
        Except.ok (image, ops, mapping)

end ImageRedactor

/-! ## Placeholder generation in `ImageDetector` (`image/detector.py`)

`detect_faces` increments `_face_counter` and then builds
`f'[FACE_{chr(64 + self._face_counter)}]'` — with no decimal fallback. -/

namespace ImageDetector

/-- The ID character used for the `counter`-th face (counter starts at 1). -/
def faceIdChar (counter : Nat) : Char := Char.ofNat (64 + counter)

/-- The placeholder of the `counter`-th detected face. -/
def facePlaceholder (counter : Nat) : List Char :=
  strL "[FACE_" ++ [faceIdChar counter] ++ strL "]"

end ImageDetector

/-! ## The restoration engine over `Mapping` records

`redactor/image/__init__.py` exports `ImageRestorer` from
`redactor.image.restorer`, but that file is not under `src/`; only its
declaration (`BaseRestorer.restore(text, mapping: Dict[str, Mapping])`) and
the `Mapping` data type are.  The engine is therefore modelled from the
spec. -/

namespace ImageRestorer

/-- Modelled from the spec: the restoration pass of the missing
`image/restorer.py` (`ImageRestorer`).  "For every Mapping entry whose
`restorable` flag is true and whose placeholder literally occurs (exact
substring match) in the output, replace every occurrence with the original
value"; `restorable=false` entries are left untouched by design; iterative
whole-string substitution in mapping order (spec §9 names iterative
substitution as the reference behavior). -/
def restore (output : List Char) (mapping : List Mapping) : List Char :=
  mapping.foldl
    (fun text r =>
      if r.restorable ∧ PyStr.isSubstr r.placeholder text then
        PyStr.replace text r.placeholder (r.entity.original_text.getD [])
      else text)
    output

/-- Modelled from the spec: the scan of the hallucination pass — the
placeholder-shaped (bracketed) tokens of the output, in order.  On `'['` the
scanner takes the bracket-free body and the closing `']'` if it is there,
otherwise resumes at the offending character.  Written with explicit fuel
(every recursive call strictly shortens the input, so `s.length` fuel
suffices); see `scanTokens`. -/
def scanFuel : Nat → List Char → List (List Char)
  | _, [] => []
  | 0, _ => []
  | fuel + 1, c :: cs =>
      if c = '[' then
        let body := cs.takeWhile fun d => d ≠ '[' ∧ d ≠ ']'
        match cs.drop body.length with
        | ']' :: rs => ('[' :: body ++ [']']) :: scanFuel fuel rs
        | rest => scanFuel fuel rest
      else scanFuel fuel cs

/-- The placeholder-shaped tokens of a text, in order of occurrence. -/
def scanTokens (s : List Char) : List (List Char) := scanFuel s.length s

/-- Modelled from the spec: the hallucination pass — placeholder-shaped
tokens of the output with no corresponding key in the mapping. -/
def hallucinated (output : List Char) (keys : List (List Char)) : List (List Char) :=
  (scanTokens output).filter fun t => decide (t ∉ keys)

end ImageRestorer

/-! ## Derived notions used by the statements and proofs -/

namespace PyStr

/-- Number of (possibly overlapping) occurrences of `pat` in `s`, counted by
starting position. -/
def countOcc (pat : List Char) : List Char → Nat
  | [] => 0
  | c :: cs => (if pat.isPrefixOf (c :: cs) then 1 else 0) + countOcc pat cs

/-- `pat` occurs nowhere in `s` (at no starting position). -/
def NoOcc (pat s : List Char) : Prop := ∀ i : Nat, ¬ pat <+: s.drop i

end PyStr

/-- A placeholder-shaped token: an opening bracket, a bracket-free body,
a closing bracket. -/
def bracketShaped (p : List Char) : Prop :=
  ∃ mid : List Char, p = '[' :: mid ++ [']'] ∧ '[' ∉ mid ∧ ']' ∉ mid

/-- `S₀ ++ sep ++ S₁ ++ ... ++ sep ++ Sₖ`: a text written as its segments
around the occurrences of a separator token.  Every text splits this way
with separator-free segments (`sepJoin_decomp_exists`), and for a
bracket-shaped separator the segment boundaries are exactly the
occurrences the scan of `str.replace` rewrites. -/
def sepJoin (sep : List Char) : List (List Char) → List Char
  | [] => []
  | [S] => S
  | S :: ss => S ++ sep ++ sepJoin sep ss

/-- Reference form of `Nat.toDigits 10`: most-significant-first decimal
digits, by division. -/
def digitsOf (n : Nat) : List Char :=
  if _h : n < 10 then [Nat.digitChar n]
  else digitsOf (n / 10) ++ [Nat.digitChar (n % 10)]
  termination_by n
  decreasing_by
    exact Nat.div_lt_self (by omega) (by omega)

/-- Numeric value of a most-significant-first digit string. -/
def digitsVal (l : List Char) : Nat :=
  l.foldl (fun a c => 10 * a + (c.toNat - '0'.toNat)) 0

namespace Redactor

/-- Number of entities of label `l` in `es`. -/
def cnt (l : List Char) (es : List PyEntity) : Nat :=
  (es.filter fun e => decide (e.label = l)).length

/-- The placeholder `redact` assigns to `e` when the entities after `e` in
ascending-start order (i.e. processed before `e`) are `rest`. -/
def expPh (e : PyEntity) (rest : List PyEntity) : List Char :=
  placeholderOf e.label (cnt e.label rest)

/-- The redacted text `redact` produces for a document `T` and entities
`es` listed in ascending-start order: each span replaced by its placeholder,
all other characters of `T` kept. -/
def expText (T : List Char) : List PyEntity → List Char
  | [] => T
  | e :: rest => T.take e.start ++ expPh e rest ++ (expText T rest).drop e.«end»

/-- The placeholder map `redact` produces for entities `es` listed in
ascending-start order (insertion order is processing order, i.e. descending
start). -/
def expMap : List PyEntity → List (List Char × List Char)
  | [] => []
  | e :: rest => expMap rest ++ [(expPh e rest, e.entity)]

end Redactor

namespace Restorer

/-- The placeholders `Restorer.restore` observes as absent at the moment
they are processed (the `else` branch of the loop), accumulated in
processing order; `restoreReport` computes `restore` paired with this
list. -/
def reportList (t : List Char) : List (List Char × List Char) → List (List Char)
  | [] => []
  | pv :: m' =>
      if PyStr.isSubstr pv.1 t then reportList (PyStr.replace t pv.1 pv.2) m'
      else pv.1 :: reportList t m'

end Restorer

-- sanity checks of the embedding on the repository's own examples
example :
    Restorer.restore (strL "[PERSON_A] and [PERSON_B]")
      [(strL "[PERSON_A]", strL "Jane Doe")] = strL "Jane Doe and [PERSON_B]" := by decide

example :
    Redactor.redact (strL "hi Bob")
      [{ entity := strL "Bob", label := strL "PERSON", start := 3, «end» := 6 }] none =
    (strL "hi [PERSON_A]", [(strL "[PERSON_A]", strL "Bob")]) := by decide

example :
    ImageRestorer.scanTokens (strL "[PERSON_A] and [PERSON_B]") =
      [strL "[PERSON_A]", strL "[PERSON_B]"] := by decide

example :
    ImageRestorer.hallucinated (strL "[PERSON_A] and [PERSON_B]") [strL "[PERSON_A]"] =
      [strL "[PERSON_B]"] := by decide

/-! # Lemmas -/

/-! ## The stable sort -/

namespace PySort

theorem mem_insertBy (stays : α → α → Bool) (a x : α) :
    ∀ l : List α, x ∈ insertBy stays a l ↔ x = a ∨ x ∈ l := by
  intro l
  induction l with
  | nil => simp [insertBy]
  | cons b bs ih =>
    simp only [insertBy]
    by_cases h : stays b a = true
    · rw [if_pos h]
      simp [ih]
      tauto
    · rw [if_neg h]
      simp

theorem perm_insertBy (stays : α → α → Bool) (a : α) :
    ∀ l : List α, (insertBy stays a l).Perm (a :: l) := by
  intro l
  induction l with
  | nil => simp [insertBy]
  | cons b bs ih =>
    simp only [insertBy]
    by_cases h : stays b a = true
    · rw [if_pos h]
      exact (ih.cons b).trans (List.Perm.swap a b bs)
    · rw [if_neg h]

theorem perm_sortBy (stays : α → α → Bool) :
    ∀ l : List α, (sortBy stays l).Perm l := by
  intro l
  induction l with
  | nil => simp [sortBy]
  | cons a as ih =>
    exact (perm_insertBy stays a (sortBy stays as)).trans (ih.cons a)

theorem pairwise_insertBy {R : α → α → Prop} {stays : α → α → Bool}
    (htot : ∀ a b, stays b a = false → R a b)
    (hstays : ∀ a b, stays b a = true → R b a)
    (htrans : ∀ a b c, R a b → R b c → R a c) (a : α) :
    ∀ l : List α, l.Pairwise R → (insertBy stays a l).Pairwise R := by
  intro l
  induction l with
  | nil => simp [insertBy]
  | cons b bs ih =>
    intro hp
    rcases List.pairwise_cons.mp hp with ⟨hb, hbs⟩
    simp only [insertBy]
    by_cases h : stays b a = true
    · rw [if_pos h]
      refine List.pairwise_cons.mpr ⟨?_, ih hbs⟩
      intro x hx
      rcases (mem_insertBy stays a x bs).mp hx with rfl | hx
      · exact hstays x b h
      · exact hb x hx
    · rw [if_neg h]
      refine List.pairwise_cons.mpr ⟨?_, hp⟩
      intro x hx
      rcases List.mem_cons.mp hx with rfl | hx
      · exact htot a x (by simpa using h)
      · exact htrans a b x (htot a b (by simpa using h)) (hb x hx)

theorem pairwise_sortBy {R : α → α → Prop} {stays : α → α → Bool}
    (htot : ∀ a b, stays b a = false → R a b)
    (hstays : ∀ a b, stays b a = true → R b a)
    (htrans : ∀ a b c, R a b → R b c → R a c) :
    ∀ l : List α, (sortBy stays l).Pairwise R := by
  intro l
  induction l with
  | nil => simp [sortBy]
  | cons a as ih => exact pairwise_insertBy htot hstays htrans a _ ih

end PySort

/-! ## Deduplication (`detector.py`) -/

namespace PIIDetector

theorem dedupScan_sublist : ∀ (l : List PyEntity) (le : Int),
    (dedupScan l le).Sublist l := by
  intro l
  induction l with
  | nil => intro le; simp [dedupScan]
  | cons e rest ih =>
    intro le
    simp only [dedupScan]
    by_cases h1 : (e.«end» : Int) ≤ le
    · rw [if_pos h1]
      exact (ih le).trans (List.sublist_cons_self e rest)
    · rw [if_neg h1]
      by_cases h2 : (e.start : Int) < le
      · rw [if_pos h2]
        exact (ih le).trans (List.sublist_cons_self e rest)
      · rw [if_neg h2]
        exact (ih _).cons₂ e

theorem dedupScan_bound : ∀ (l : List PyEntity) (le : Int),
    ∀ x ∈ dedupScan l le, le ≤ (x.start : Int) ∧ le < (x.«end» : Int) := by
  intro l
  induction l with
  | nil => intro le x hx; simp [dedupScan] at hx
  | cons e rest ih =>
    intro le x hx
    simp only [dedupScan] at hx
    by_cases h1 : (e.«end» : Int) ≤ le
    · rw [if_pos h1] at hx
      exact ih le x hx
    · rw [if_neg h1] at hx
      by_cases h2 : (e.start : Int) < le
      · rw [if_pos h2] at hx
        exact ih le x hx
      · rw [if_neg h2] at hx
        rcases List.mem_cons.mp hx with rfl | hx
        · exact ⟨by omega, by omega⟩
        · have := ih _ x hx
          constructor <;> omega

theorem dedupScan_pairwise : ∀ (l : List PyEntity) (le : Int),
    (dedupScan l le).Pairwise (fun a b => a.«end» ≤ b.start) := by
  intro l
  induction l with
  | nil => intro le; simp [dedupScan]
  | cons e rest ih =>
    intro le
    simp only [dedupScan]
    by_cases h1 : (e.«end» : Int) ≤ le
    · rw [if_pos h1]; exact ih le
    · rw [if_neg h1]
      by_cases h2 : (e.start : Int) < le
      · rw [if_pos h2]; exact ih le
      · rw [if_neg h2]
        refine List.pairwise_cons.mpr ⟨?_, ih _⟩
        intro x hx
        have hb := (dedupScan_bound rest _ x hx).1
        exact_mod_cast hb

end PIIDetector

/-! ## Occurrences and replacement -/

namespace PyStr

theorem isSubstr_false_iff (pat : List Char) :
    ∀ s : List Char, isSubstr pat s = false ↔ NoOcc pat s := by
  intro s
  induction s with
  | nil =>
    simp only [isSubstr, NoOcc, List.drop_nil]
    constructor
    · intro h i hpre
      have hpat : pat = [] := List.prefix_nil.mp hpre
      subst hpat
      simp at h
    · intro h
      rcases pat with _ | ⟨a, as⟩
      · exfalso
        apply h 0
        simp
      · rfl
  | cons c cs ih =>
    simp only [isSubstr, Bool.or_eq_false_iff]
    constructor
    · rintro ⟨h1, h2⟩ i
      rcases i with _ | j
      · simp only [List.drop_zero]
        intro hpre
        rw [← @List.isPrefixOf_iff_prefix _ _ _ pat (c :: cs)] at hpre
        rw [h1] at hpre
        exact Bool.false_ne_true hpre
      · simp only [List.drop_succ_cons]
        exact (ih.mp h2) j
    · intro h
      constructor
      · by_cases hb : pat.isPrefixOf (c :: cs)
        · exact absurd ((List.isPrefixOf_iff_prefix).mp hb) (by simpa using h 0)
        · exact Bool.eq_false_iff.mpr hb
      · exact ih.mpr fun j => by simpa using h (j + 1)

theorem isSubstr_true_of_occ {pat s : List Char} (i : Nat) (h : pat <+: s.drop i) :
    isSubstr pat s = true := by
  by_cases hs : isSubstr pat s = true
  · exact hs
  · have := (isSubstr_false_iff pat s).mp (by simpa using hs)
    exact absurd h (this i)

theorem NoOcc.ne_nil {pat s : List Char} (h : NoOcc pat s) : pat ≠ [] := by
  intro hp
  subst hp
  exact h 0 List.nil_prefix

theorem noOcc_drop {pat s : List Char} (h : NoOcc pat s) (k : Nat) :
    NoOcc pat (s.drop k) := by
  intro i
  rw [List.drop_drop]
  exact h (k + i)

theorem noOcc_take {pat s : List Char} (h : NoOcc pat s) (k : Nat) :
    NoOcc pat (s.take k) := by
  intro i hpre
  rw [List.drop_take] at hpre
  exact h i (hpre.trans (List.take_prefix _ _))

theorem replaceCore_of_noOcc (old new : List Char) :
    ∀ s : List Char, NoOcc old s → replaceCore old new s = s := by
  intro s
  induction s with
  | nil => intro _; rfl
  | cons c cs ih =>
    intro h
    rw [replaceCore_cons]
    have h0 : ¬ old.isPrefixOf (c :: cs) = true := by
      intro hb
      exact h 0 (by simpa using (List.isPrefixOf_iff_prefix).mp hb)
    rw [if_neg (fun hcon => h0 hcon.2)]
    rw [ih fun j => by simpa using h (j + 1)]

theorem replaceCore_append_noEarly (old new : List Char) :
    ∀ (u w : List Char),
      (∀ i < u.length, ¬ old <+: ((u ++ w).drop i)) →
      replaceCore old new (u ++ w) = u ++ replaceCore old new w := by
  intro u
  induction u with
  | nil => intro w _; simp
  | cons c u' ih =>
    intro w h
    have h0 : ¬ old.isPrefixOf (c :: (u' ++ w)) = true := by
      intro hb
      exact h 0 (by simp) (by simpa using (List.isPrefixOf_iff_prefix).mp hb)
    rw [List.cons_append, replaceCore_cons, if_neg (fun hcon => h0 hcon.2)]
    rw [ih w fun i hi => by simpa using h (i + 1) (by simpa using hi)]
    simp

end PyStr

/-! ## Geometry of bracket-shaped tokens -/

theorem bracketShaped.not_nil {p : List Char} (h : bracketShaped p) : p ≠ [] := by
  rcases h with ⟨mid, rfl, -, -⟩
  simp

theorem bracketShaped.two_le {p : List Char} (h : bracketShaped p) : 2 ≤ p.length := by
  rcases h with ⟨mid, rfl, -, -⟩
  simp only [List.length_cons, List.length_append, List.length_singleton]
  omega

/-- Splitting a list at the first occurrence of a separator character is
unambiguous. -/
theorem sep_append_inj {ch : Char} :
    ∀ (a₁ : List Char) {b₁ a₂ b₂ : List Char},
      a₁ ++ ch :: b₁ = a₂ ++ ch :: b₂ → ch ∉ a₁ → ch ∉ a₂ → a₁ = a₂ ∧ b₁ = b₂ := by
  intro a₁
  induction a₁ with
  | nil =>
    intro b₁ a₂ b₂ h h₁ h₂
    rcases a₂ with _ | ⟨c, a₂'⟩
    · simpa using h
    · simp only [List.nil_append, List.cons_append, List.cons.injEq] at h
      exact absurd (h.1 ▸ List.mem_cons_self c a₂') h₂
  | cons c a₁' ih =>
    intro b₁ a₂ b₂ h h₁ h₂
    rcases a₂ with _ | ⟨c₂, a₂'⟩
    · simp only [List.cons_append, List.nil_append, List.cons.injEq] at h
      exact absurd (h.1 ▸ List.mem_cons_self c a₁') h₁
    · simp only [List.cons_append, List.cons.injEq] at h
      rcases h with ⟨rfl, h⟩
      have := ih h (fun hm => h₁ (List.mem_cons_of_mem _ hm))
        (fun hm => h₂ (List.mem_cons_of_mem _ hm))
      exact ⟨by rw [this.1], this.2⟩

/-- Splitting a list at the last occurrence of a separator character is
unambiguous. -/
theorem sep_append_inj_last {ch : Char} (a₁ : List Char) {b₁ a₂ b₂ : List Char}
    (h : a₁ ++ ch :: b₁ = a₂ ++ ch :: b₂) (h₁ : ch ∉ b₁) (h₂ : ch ∉ b₂) :
    a₁ = a₂ ∧ b₁ = b₂ := by
  have hrev : b₁.reverse ++ ch :: a₁.reverse = b₂.reverse ++ ch :: a₂.reverse := by
    have := congrArg List.reverse h
    simpa [List.reverse_append] using this
  have := sep_append_inj b₁.reverse hrev (by simpa using h₁) (by simpa using h₂)
  constructor
  · have := this.2
    simpa using congrArg List.reverse this
  · have := this.1
    simpa using congrArg List.reverse this

/-- No tail of `m ++ ']' :: t` taken inside `m ++ [']']` starts with `'['`
when `m` is `'['`-free. -/
theorem bracket_tail_no_open {m t s : List Char} (hmo : '[' ∉ m) {k : Nat}
    (hk : k ≤ m.length) (ht : (m ++ ']' :: t).drop k = '[' :: s) : False := by
  rcases Nat.lt_or_ge k m.length with hlt | hge
  · have hsplit : (m ++ ']' :: t).drop k = m.drop k ++ ']' :: t := by
      rw [List.drop_append_eq_append_drop, Nat.sub_eq_zero_of_le (le_of_lt hlt),
        List.drop_zero]
    rw [hsplit] at ht
    rcases hd : m.drop k with _ | ⟨d, ds⟩
    · have := congrArg List.length hd
      simp at this
      omega
    · rw [hd] at ht
      simp only [List.cons_append, List.cons.injEq] at ht
      have hdm : d ∈ m := by
        have : d ∈ m.drop k := by
          rw [hd]
          exact List.mem_cons_self d ds
        exact List.mem_of_mem_drop this
      exact hmo (ht.1 ▸ hdm)
  · have hkeq : k = m.length := by omega
    subst hkeq
    rw [List.drop_append_eq_append_drop, List.drop_of_length_le (le_refl _)] at ht
    simp at ht

/-- A prefix no longer than the left part of an append is a prefix of the
left part. -/
theorem occ_in_left_of_le {p a b : List Char} (h : p <+: a ++ b)
    (hl : p.length ≤ a.length) : p <+: a := by
  have hp := List.prefix_iff_eq_take.mp h
  rw [List.take_append_eq_append_take, Nat.sub_eq_zero_of_le hl, List.take_zero,
    List.append_nil] at hp
  rw [hp]
  exact List.take_prefix _ _

/-- Of two prefixes of the same list, the shorter is a prefix of the
longer. -/
theorem shorter_of_two {p q s : List Char} (hp : p <+: s) (hq : q <+: s)
    (hl : p.length ≤ q.length) : p <+: q := by
  have h1 := List.prefix_iff_eq_take.mp hp
  have h2 := List.prefix_iff_eq_take.mp hq
  have key : ∃ n, p = q.take n := by
    refine ⟨p.length, ?_⟩
    rw [h2, List.take_take, Nat.min_def, if_pos hl]
    exact h1
  obtain ⟨n, hn⟩ := key
  rw [hn]
  exact List.take_prefix _ _

/-- A bracket-shaped prefix of a bracket-shaped token (followed by
anything) is that very token. -/
theorem bracket_head_eq {p q w : List Char} (hp : bracketShaped p)
    (hq : bracketShaped q) (h : p <+: q ++ w) : p = q := by
  rcases hp with ⟨m₁, rfl, -, hm₁c⟩
  rcases hq with ⟨m₂, rfl, -, hm₂c⟩
  obtain ⟨t, ht⟩ := h
  have ht' : m₁ ++ ']' :: t = m₂ ++ ']' :: w := by
    simpa using ht
  have := sep_append_inj m₁ ht' hm₁c hm₂c
  rw [this.1]

/-- A bracket-shaped token cannot start strictly inside another
bracket-shaped token. -/
theorem bracket_inner_not {p q w : List Char} (hp : bracketShaped p)
    (hq : bracketShaped q) {i : Nat} (h1 : 0 < i) (h2 : i < q.length) :
    ¬ p <+: ((q ++ w).drop i) := by
  rcases hp with ⟨m₁, rfl, -, -⟩
  rcases hq with ⟨m₂, rfl, hm₂o, -⟩
  intro hpre
  obtain ⟨t, ht⟩ := hpre
  rcases i with _ | k
  · omega
  · have hlen : k ≤ m₂.length := by
      simp only [List.length_cons, List.length_append, List.length_singleton,
        List.length_nil] at h2
      omega
    have hq' : (('[' :: m₂ ++ [']']) ++ w).drop (k + 1) = (m₂ ++ ']' :: w).drop k := by
      simp
    rw [hq'] at ht
    refine @bracket_tail_no_open m₂ w (m₁ ++ [']'] ++ t) hm₂o k hlen ?_
    rw [← ht]
    simp

/-- Positions strictly before a bracket-shaped block `p` in `A ++ p ++ B`
carry no occurrence of a bracket-shaped `x` when `x` does not occur in `A`
itself. -/
theorem noOcc_before_block {x p : List Char} (hx : bracketShaped x)
    (hp : bracketShaped p) (A B : List Char) (hA : PyStr.NoOcc x A) :
    ∀ i < A.length, ¬ x <+: ((A ++ p ++ B).drop i) := by
  intro i hi hpre
  have hAi : (A ++ p ++ B).drop i = A.drop i ++ (p ++ B) := by
    rw [List.append_assoc, List.drop_append_eq_append_drop,
      Nat.sub_eq_zero_of_le (le_of_lt hi), List.drop_zero]
  rw [hAi] at hpre
  rcases le_or_lt x.length (A.length - i) with hl | hl
  · refine hA i (occ_in_left_of_le hpre ?_)
    simp only [List.length_drop]
    omega
  · have hul : (A.drop i).length = A.length - i := by simp
    have hux : A.drop i <+: x :=
      shorter_of_two (List.prefix_append (A.drop i) (p ++ B)) hpre (by omega)
    obtain ⟨r, hr⟩ := hux
    obtain ⟨t, ht⟩ := hpre
    rw [← hr, List.append_assoc] at ht
    have ht2 : r ++ t = p ++ B := List.append_cancel_left ht
    have hulen1 : 1 ≤ (A.drop i).length := by omega
    obtain ⟨j, hj⟩ : ∃ j, (A.drop i).length = j + 1 := ⟨(A.drop i).length - 1, by omega⟩
    rcases hx with ⟨m₁, hxe, hm₁o, -⟩
    have hrdrop : r = x.drop ((A.drop i).length) := by
      rw [← hr, List.drop_left]
    have hxlen : x.length = m₁.length + 2 := by
      rw [hxe]
      simp
    have hjm : j ≤ m₁.length := by omega
    have hrd : r = (m₁ ++ [']']).drop j := by
      rw [hrdrop, hxe, hj]
      simp
    rcases hp with ⟨m₂, hpe, -, -⟩
    have hfin : (m₁ ++ ']' :: t).drop j = '[' :: (m₂ ++ [']'] ++ B) := by
      have hsplit : (m₁ ++ ']' :: t).drop j = (m₁ ++ [']']).drop j ++ t := by
        rw [show m₁ ++ ']' :: t = (m₁ ++ [']']) ++ t by simp,
          List.drop_append_eq_append_drop,
          Nat.sub_eq_zero_of_le (by simp; omega), List.drop_zero]
      rw [hsplit, ← hrd, ht2, hpe]
      simp
    exact bracket_tail_no_open hm₁o hjm hfin

/-- No occurrence of a bracket-shaped `x` starts before the end of the
block `p` in `A ++ p ++ B`, when `x ≠ p` and `x` does not occur in `A`. -/
theorem noOcc_through_block {x p : List Char} (hx : bracketShaped x)
    (hp : bracketShaped p) (hne : x ≠ p) (A B : List Char)
    (hA : PyStr.NoOcc x A) :
    ∀ i < A.length + p.length, ¬ x <+: ((A ++ p ++ B).drop i) := by
  intro i hi
  rcases Nat.lt_or_ge i A.length with hiA | hiA
  · exact noOcc_before_block hx hp A B hA i hiA
  · have hsplit : (A ++ p ++ B).drop i = (p ++ B).drop (i - A.length) := by
      rw [List.append_assoc, List.drop_append_eq_append_drop,
        List.drop_of_length_le hiA, List.nil_append]
    rw [hsplit]
    rcases Nat.eq_or_lt_of_le hiA with heq | hlt
    · rw [← heq, Nat.sub_self]
      intro hpre
      exact hne (bracket_head_eq hx hp (by simpa using hpre))
    · exact bracket_inner_not hx hp (by omega) (by omega)

/-- Dropping past the first two parts of `A ++ p ++ B`. -/
theorem drop_append₂ {A p B : List Char} {i : Nat}
    (hi : A.length + p.length ≤ i) :
    (A ++ p ++ B).drop i = B.drop (i - (A.length + p.length)) := by
  rw [List.append_assoc, List.drop_append_eq_append_drop,
    List.drop_append_eq_append_drop,
    List.drop_of_length_le (by omega), List.drop_of_length_le (by omega)]
  simp only [List.nil_append, Nat.sub_sub]

/-- The occurrences of a bracket-shaped `x ≠ p` in `A ++ p ++ B` all lie in
`B`, so the substring test passes through the block. -/
theorem isSubstr_block {x p : List Char} (hx : bracketShaped x)
    (hp : bracketShaped p) (hne : x ≠ p) (A B : List Char)
    (hA : PyStr.NoOcc x A) :
    PyStr.isSubstr x (A ++ p ++ B) = PyStr.isSubstr x B := by
  rcases hB : PyStr.isSubstr x B with _ | _
  · have hnoB : PyStr.NoOcc x B := (PyStr.isSubstr_false_iff x B).mp hB
    refine (PyStr.isSubstr_false_iff x (A ++ p ++ B)).mpr ?_
    intro i
    rcases Nat.lt_or_ge i (A.length + p.length) with hi | hi
    · exact noOcc_through_block hx hp hne A B hA i hi
    · have hsplit : (A ++ p ++ B).drop i = B.drop (i - (A.length + p.length)) :=
        drop_append₂ (by omega)
      rw [hsplit]
      exact hnoB _
  · obtain ⟨i, hocc⟩ : ∃ i, x <+: B.drop i := by
      by_contra hno
      push_neg at hno
      rw [(PyStr.isSubstr_false_iff x B).mpr hno] at hB
      exact Bool.false_ne_true hB
    refine PyStr.isSubstr_true_of_occ (A.length + p.length + i) ?_
    have hsplit : (A ++ p ++ B).drop (A.length + p.length + i) = B.drop i := by
      rw [drop_append₂ (by omega)]
      congr 1
      omega
    rw [hsplit]
    exact hocc

/-- Replacement of a bracket-shaped `x ≠ p` passes through the block
`A ++ p ++ ·`. -/
theorem replaceCore_block {x v p : List Char} (hx : bracketShaped x)
    (hp : bracketShaped p) (hne : x ≠ p) (A B : List Char)
    (hA : PyStr.NoOcc x A) :
    PyStr.replaceCore x v (A ++ p ++ B) = A ++ p ++ PyStr.replaceCore x v B := by
  rw [PyStr.replaceCore_append_noEarly x v (A ++ p) B
    (by
      intro i hi
      refine noOcc_through_block hx hp hne A B hA i ?_
      simpa using hi)]

/-- Replacing `p` itself in `A ++ p ++ B` when `p` occurs in neither `A`
nor `B`: exactly the explicit occurrence is rewritten. -/
theorem replaceCore_at_block {p v : List Char} (hp : bracketShaped p)
    (A B : List Char) (hA : PyStr.NoOcc p A) (hB : PyStr.NoOcc p B) :
    PyStr.replaceCore p v (A ++ p ++ B) = A ++ v ++ B := by
  rw [List.append_assoc, PyStr.replaceCore_append_noEarly p v A (p ++ B)
    (by
      intro i hi
      rw [← List.append_assoc]
      exact noOcc_before_block hp hp A B hA i hi)]
  have hpB : PyStr.replaceCore p v (p ++ B) = v ++ B := by
    rcases hcons : p with _ | ⟨c, ps⟩
    · exact absurd hcons hp.not_nil
    · rw [← hcons]
      have : p ++ B = c :: (ps ++ B) := by rw [hcons]; simp
      rw [this, PyStr.replaceCore_cons]
      rw [if_pos ?_]
      · rw [← this, List.drop_left]
        rw [PyStr.replaceCore_of_noOcc p v B hB]
      · constructor
        · rw [hcons]; simp
        · rw [← this]
          exact (List.isPrefixOf_iff_prefix).mpr (List.prefix_append p B)
  rw [hpB]
  simp

namespace Restorer

theorem restore_append (out : List Char) (m₁ m₂ : List (List Char × List Char)) :
    restore out (m₁ ++ m₂) = restore (restore out m₁) m₂ :=
  List.foldl_append _ _ _ _

/-- The whole restoration loop passes through a block `A ++ p ++ ·` when no
map key is `p`, every key is bracket-shaped, and no key occurs in `A`. -/
theorem restore_block (m : List (List Char × List Char)) (A p : List Char)
    (hp : bracketShaped p)
    (hm : ∀ pv ∈ m, bracketShaped pv.1 ∧ pv.1 ≠ p ∧ PyStr.NoOcc pv.1 A) :
    ∀ B : List Char, restore (A ++ p ++ B) m = A ++ p ++ restore B m := by
  induction m with
  | nil => intro B; rfl
  | cons qv m' ih =>
    intro B
    obtain ⟨hq, hqne, hqA⟩ := hm qv (List.mem_cons_self _ _)
    have hm' : ∀ pv ∈ m', bracketShaped pv.1 ∧ pv.1 ≠ p ∧ PyStr.NoOcc pv.1 A :=
      fun pv hpv => hm pv (List.mem_cons_of_mem _ hpv)
    show restore (restoreStep (A ++ p ++ B) qv) (m') = _
    have hstep : restoreStep (A ++ p ++ B) qv = A ++ p ++ restoreStep B qv := by
      simp only [restoreStep]
      rw [isSubstr_block hq hp hqne A B hqA]
      rcases hg : PyStr.isSubstr qv.1 B with _ | _
      · simp
      · simp only [if_pos rfl]
        have hqnil : qv.1 ≠ [] := hq.not_nil
        simp only [PyStr.replace, if_neg hqnil]
        exact replaceCore_block hq hp hqne A B hqA
    rw [hstep]
    exact ih hm' (restoreStep B qv)

end Restorer

/-! ## Decimal digits and placeholder injectivity -/

theorem digitChar_eq_star {n : Nat} (h : 16 ≤ n) : Nat.digitChar n = '*' := by
  unfold Nat.digitChar
  repeat rw [if_neg (by omega)]

theorem digitChar_ne_special (n : Nat) :
    Nat.digitChar n ≠ '[' ∧ Nat.digitChar n ≠ ']' ∧ Nat.digitChar n ≠ '_' := by
  rcases Nat.lt_or_ge n 16 with h16 | h16
  · interval_cases n <;> exact ⟨by decide, by decide, by decide⟩
  · rw [digitChar_eq_star h16]
    exact ⟨by decide, by decide, by decide⟩

theorem toDigitsCore_succ (b fuel n : Nat) (ds : List Char) :
    Nat.toDigitsCore b (fuel + 1) n ds =
      if n / b = 0 then Nat.digitChar (n % b) :: ds
      else Nat.toDigitsCore b fuel (n / b) (Nat.digitChar (n % b) :: ds) := rfl

theorem toDigitsCore_eq_digitsOf :
    ∀ (fuel n : Nat) (ds : List Char), n < fuel →
      Nat.toDigitsCore 10 fuel n ds = digitsOf n ++ ds := by
  intro fuel
  induction fuel with
  | zero => intro n ds h; omega
  | succ f ih =>
    intro n ds h
    rw [toDigitsCore_succ]
    by_cases hq : n / 10 = 0
    · have hn : n < 10 := by omega
      rw [if_pos hq]
      rw [digitsOf, dif_pos hn, Nat.mod_eq_of_lt hn]
      rfl
    · have h10 : 10 ≤ n := by
        by_contra hc
        exact hq (Nat.div_eq_of_lt (by omega))
      rw [if_neg hq]
      rw [show digitsOf n = digitsOf (n / 10) ++ [Nat.digitChar (n % 10)] from by
        rw [digitsOf]
        rw [dif_neg (by omega)]]
      rw [ih (n / 10) _ (by omega)]
      simp

theorem toDigits_eq_digitsOf (n : Nat) : Nat.toDigits 10 n = digitsOf n := by
  have := toDigitsCore_eq_digitsOf (n + 1) n [] (by omega)
  simpa [Nat.toDigits] using this

theorem digitsOf_ne_nil (n : Nat) : digitsOf n ≠ [] := by
  rw [digitsOf]
  split
  · simp
  · simp

theorem digitsOf_mem (n : Nat) : ∀ c ∈ digitsOf n, ∃ k, k < 10 ∧ c = Nat.digitChar k := by
  induction n using Nat.strong_induction_on with
  | _ n ih =>
    intro c hc
    rw [digitsOf] at hc
    split at hc
    · rename_i hn
      refine ⟨n, hn, ?_⟩
      simpa using hc
    · rename_i hn
      rcases List.mem_append.mp hc with hc | hc
      · exact ih (n / 10) (Nat.div_lt_self (by omega) (by omega)) c hc
      · exact ⟨n % 10, Nat.mod_lt n (by omega), by simpa using hc⟩

theorem digitsOf_two_le {n : Nat} (h : 10 ≤ n) : 2 ≤ (digitsOf n).length := by
  rw [digitsOf, dif_neg (by omega)]
  have := digitsOf_ne_nil (n / 10)
  have hpos : 1 ≤ (digitsOf (n / 10)).length := by
    rcases hd : digitsOf (n / 10) with _ | ⟨d, ds⟩
    · exact absurd hd this
    · simp
  simp only [List.length_append, List.length_singleton]
  omega

theorem digitVal_digitChar {k : Nat} (h : k < 10) :
    (Nat.digitChar k).toNat - '0'.toNat = k := by
  interval_cases k <;> decide

theorem digitsVal_digitsOf (n : Nat) : digitsVal (digitsOf n) = n := by
  induction n using Nat.strong_induction_on with
  | _ n ih =>
    rw [digitsOf]
    split
    · rename_i hn
      simp only [digitsVal, List.foldl_cons, List.foldl_nil]
      rw [digitVal_digitChar hn]
      omega
    · rename_i hn
      simp only [digitsVal, List.foldl_append, List.foldl_cons, List.foldl_nil]
      have ihq := ih (n / 10) (Nat.div_lt_self (by omega) (by omega))
      simp only [digitsVal] at ihq
      rw [ihq, digitVal_digitChar (Nat.mod_lt n (by omega))]
      omega

theorem digitsOf_inj {m n : Nat} (h : digitsOf m = digitsOf n) : m = n := by
  have := congrArg digitsVal h
  rwa [digitsVal_digitsOf, digitsVal_digitsOf] at this

namespace Redactor

theorem ofNat_letter_toNat {c : Nat} (h : c < 26) :
    (Char.ofNat ('A'.toNat + c)).toNat = 'A'.toNat + c := by
  interval_cases c <;> decide

theorem generate_placeholder_id_ne_special (count : Nat) :
    ∀ ch ∈ generate_placeholder_id count, ch ≠ '[' ∧ ch ≠ ']' ∧ ch ≠ '_' := by
  intro ch hch
  rw [generate_placeholder_id] at hch
  split at hch
  · rename_i hc
    have : ch = Char.ofNat ('A'.toNat + count) := by simpa using hch
    subst this
    revert hc
    intro hc
    interval_cases count <;> exact ⟨by decide, by decide, by decide⟩
  · rw [toDigits_eq_digitsOf] at hch
    obtain ⟨k, -, rfl⟩ := digitsOf_mem count ch hch
    exact digitChar_ne_special k

theorem generate_placeholder_id_ne_nil (count : Nat) :
    generate_placeholder_id count ≠ [] := by
  rw [generate_placeholder_id]
  split
  · simp
  · rw [toDigits_eq_digitsOf]
    exact digitsOf_ne_nil count

theorem generate_placeholder_id_inj {c₁ c₂ : Nat}
    (h : generate_placeholder_id c₁ = generate_placeholder_id c₂) : c₁ = c₂ := by
  rw [generate_placeholder_id, generate_placeholder_id] at h
  split at h <;> split at h
  · rename_i h₁ h₂
    have := congrArg (fun l => l.foldl (fun a c => a + c.toNat) 0) h
    simp only [List.foldl_cons, List.foldl_nil, Nat.zero_add] at this
    rw [ofNat_letter_toNat h₁, ofNat_letter_toNat h₂] at this
    omega
  · rename_i h₁ h₂
    exfalso
    have := congrArg List.length h
    rw [toDigits_eq_digitsOf] at this
    have h2 := @digitsOf_two_le c₂ (by omega)
    simp only [List.length_singleton] at this
    omega
  · rename_i h₁ h₂
    exfalso
    have := congrArg List.length h
    rw [toDigits_eq_digitsOf] at this
    have h2 := @digitsOf_two_le c₁ (by omega)
    simp only [List.length_singleton] at this
    omega
  · rw [toDigits_eq_digitsOf, toDigits_eq_digitsOf] at h
    exact digitsOf_inj h

/-- Freshly generated placeholders are bracket-shaped whenever the label
contains no brackets. -/
theorem placeholderOf_bracketShaped {label : List Char}
    (ho : '[' ∉ label) (hc : ']' ∉ label) (count : Nat) :
    bracketShaped (placeholderOf label count) := by
  refine ⟨label ++ '_' :: generate_placeholder_id count, ?_, ?_, ?_⟩
  · simp [placeholderOf]
  · intro hmem
    rcases List.mem_append.mp hmem with hm | hm
    · exact ho hm
    · rcases List.mem_cons.mp hm with hm | hm
      · exact absurd hm.symm (by decide)
      · exact (generate_placeholder_id_ne_special count _ hm).1 rfl
  · intro hmem
    rcases List.mem_append.mp hmem with hm | hm
    · exact hc hm
    · rcases List.mem_cons.mp hm with hm | hm
      · exact absurd hm.symm (by decide)
      · exact (generate_placeholder_id_ne_special count _ hm).2.1 rfl

theorem placeholderOf_inj {l₁ l₂ : List Char} {c₁ c₂ : Nat}
    (h : placeholderOf l₁ c₁ = placeholderOf l₂ c₂) : l₁ = l₂ ∧ c₁ = c₂ := by
  simp only [placeholderOf, List.cons.injEq, true_and] at h
  have h' : l₁ ++ '_' :: (generate_placeholder_id c₁ ++ [']']) =
      l₂ ++ '_' :: (generate_placeholder_id c₂ ++ [']']) := by
    simpa using h
  have hu₁ : '_' ∉ generate_placeholder_id c₁ ++ [']'] := by
    intro hm
    rcases List.mem_append.mp hm with hm | hm
    · exact (generate_placeholder_id_ne_special c₁ _ hm).2.2 rfl
    · simp at hm
  have hu₂ : '_' ∉ generate_placeholder_id c₂ ++ [']'] := by
    intro hm
    rcases List.mem_append.mp hm with hm | hm
    · exact (generate_placeholder_id_ne_special c₂ _ hm).2.2 rfl
    · simp at hm
  obtain ⟨hl, hid⟩ := sep_append_inj_last l₁ h' hu₁ hu₂
  refine ⟨hl, ?_⟩
  have hlen : (generate_placeholder_id c₁).length = (generate_placeholder_id c₂).length := by
    have := congrArg List.length hid
    simpa using this
  have := (List.append_inj hid hlen).1
  exact generate_placeholder_id_inj this

end Redactor

/-! ## Characterizing `Redactor.redact` -/

theorem dictInsert_of_fresh {V : Type} (m : List (List Char × V)) (k : List Char) (v : V)
    (h : ∀ kv ∈ m, kv.1 ≠ k) : dictInsert m k v = m ++ [(k, v)] := by
  have hany : m.any (fun kv => decide (kv.1 = k)) = false := by
    rw [List.any_eq_false]
    intro kv hkv
    simp [h kv hkv]
  simp [dictInsert, hany]

namespace Redactor

theorem redactStep_text (st : RedactState) (e : PyEntity) :
    (redactStep st e).redacted_text =
      st.redacted_text.take e.start ++
        placeholderOf e.label (st.label_counts e.label) ++
        st.redacted_text.drop e.«end» := rfl

theorem cnt_nil (l : List Char) : cnt l [] = 0 := rfl

theorem cnt_cons (l : List Char) (e : PyEntity) (rest : List PyEntity) :
    cnt l (e :: rest) = (if e.label = l then 1 else 0) + cnt l rest := by
  simp only [cnt, List.filter_cons]
  by_cases h : e.label = l
  · simp [h]
    omega
  · simp [h]

theorem cnt_append (l : List Char) (es₁ es₂ : List PyEntity) :
    cnt l (es₁ ++ es₂) = cnt l es₁ + cnt l es₂ := by
  simp [cnt, List.filter_append]

/-- Every map entry comes from a decomposition of the entity list. -/
theorem expMap_mem_spec :
    ∀ (es : List PyEntity) (pv : List Char × List Char), pv ∈ expMap es →
      ∃ pre e post, es = pre ++ e :: post ∧ pv = (expPh e post, e.entity) := by
  intro es
  induction es with
  | nil => intro pv hpv; simp [expMap] at hpv
  | cons e rest ih =>
    intro pv hpv
    rcases List.mem_append.mp hpv with hpv | hpv
    · obtain ⟨pre', e', post', heq, hpv⟩ := ih pv hpv
      exact ⟨e :: pre', e', post', by rw [heq]; rfl, hpv⟩
    · refine ⟨[], e, rest, rfl, ?_⟩
      simpa using hpv

/-- The placeholder of the head entity never collides with a key generated
from its tail. -/
theorem expPh_fresh (e : PyEntity) (rest : List PyEntity) :
    ∀ pv ∈ expMap rest, pv.1 ≠ expPh e rest := by
  intro pv hpv heq
  obtain ⟨pre', e', post', heqr, rfl⟩ := expMap_mem_spec rest pv hpv
  have hinj := placeholderOf_inj heq
  have hlab : e'.label = e.label := hinj.1
  have hcnt : cnt e'.label post' = cnt e.label rest := hinj.2
  rw [hlab, heqr, cnt_append, cnt_cons] at hcnt
  rw [hlab] at hcnt
  simp at hcnt
  omega

theorem expMap_keys_nodup : ∀ es : List PyEntity, ((expMap es).map Prod.fst).Nodup := by
  intro es
  induction es with
  | nil => simp [expMap]
  | cons e rest ih =>
    simp only [expMap, List.map_append, List.map_cons, List.map_nil]
    rw [List.nodup_append]
    refine ⟨ih, by simp, ?_⟩
    intro a ha hb
    simp only [List.mem_singleton] at hb
    subst hb
    obtain ⟨pv, hpv, hfst⟩ := List.mem_map.mp ha
    exact expPh_fresh e rest pv hpv hfst

/-- The map and counter components of the redaction loop, over entities in
ascending-start order (the loop runs right to left on them). -/
theorem foldr_map_counts (T₀ : List Char) :
    ∀ es : List PyEntity,
      ((es.foldr (fun e st => redactStep st e) ⟨T₀, [], fun _ => 0⟩).placeholder_map =
        expMap es) ∧
      (∀ l, (es.foldr (fun e st => redactStep st e) ⟨T₀, [], fun _ => 0⟩).label_counts l =
        cnt l es) := by
  intro es
  induction es with
  | nil => exact ⟨rfl, fun l => rfl⟩
  | cons e rest ih =>
    simp only [List.foldr_cons]
    constructor
    · show dictInsert _ (placeholderOf e.label _) e.entity = _
      rw [ih.2 e.label, ih.1]
      rw [dictInsert_of_fresh (expMap rest) (placeholderOf e.label (cnt e.label rest))
        e.entity (fun kv hkv => expPh_fresh e rest kv hkv)]
      rfl
    · intro l
      show (if l = e.label then _ + 1 else _) = cnt l (e :: rest)
      rw [cnt_cons]
      by_cases h : l = e.label
      · rw [if_pos h, ih.2 l, if_pos h.symm]
        omega
      · rw [if_neg h, ih.2 l, if_neg (fun hc => h hc.symm)]
        omega

theorem expText_take (T : List Char) :
    ∀ (es : List PyEntity) (k : Nat),
      (∀ e ∈ es, e.start ≤ e.«end» ∧ e.«end» ≤ T.length) →
      (∀ r rs, es = r :: rs → k ≤ r.start) →
      (expText T es).take k = T.take k := by
  intro es
  induction es with
  | nil => intro k _ _; rfl
  | cons e rest _ =>
    intro k hb hk
    have hk' : k ≤ e.start := hk e rest rfl
    obtain ⟨hse, heT⟩ := hb e (List.mem_cons_self _ _)
    simp only [expText]
    rw [List.take_append_eq_append_take, List.take_append_eq_append_take]
    have h1 : k - (T.take e.start).length = 0 := by
      simp only [List.length_take]
      omega
    have h2 : k - (T.take e.start ++ expPh e rest).length = 0 := by
      simp only [List.length_append, List.length_take]
      omega
    rw [h1, h2, List.take_zero, List.take_zero, List.append_nil, List.append_nil]
    rw [List.take_take, Nat.min_def, if_pos hk']

/-- The text component of the redaction loop. -/
theorem foldr_text (T : List Char) :
    ∀ es : List PyEntity,
      es.Pairwise (fun a b => a.«end» ≤ b.start) →
      (∀ e ∈ es, e.start ≤ e.«end» ∧ e.«end» ≤ T.length) →
      (es.foldr (fun e st => redactStep st e) ⟨T, [], fun _ => 0⟩).redacted_text =
        expText T es := by
  intro es
  induction es with
  | nil => intro _ _; rfl
  | cons e rest ih =>
    intro hp hb
    rcases List.pairwise_cons.mp hp with ⟨hhead, htail⟩
    have hbt : ∀ x ∈ rest, x.start ≤ x.«end» ∧ x.«end» ≤ T.length :=
      fun x hx => hb x (List.mem_cons_of_mem _ hx)
    obtain ⟨hse, heT⟩ := hb e (List.mem_cons_self _ _)
    simp only [List.foldr_cons]
    rw [redactStep_text, ih htail hbt, (foldr_map_counts T rest).2 e.label]
    have hbound : ∀ r rs, rest = r :: rs → e.start ≤ r.start := by
      intro r rs hr
      have := hhead r (by rw [hr]; exact List.mem_cons_self _ _)
      omega
    rw [expText_take T rest e.start hbt hbound]
    rfl

theorem pairwise_start_lt {es : List PyEntity}
    (h1 : es.Pairwise fun a b => a.«end» ≤ b.start)
    (h2 : ∀ e ∈ es, e.start < e.«end») :
    es.Pairwise fun a b => a.start < b.start := by
  induction es with
  | nil => simp
  | cons e rest ih =>
    rcases List.pairwise_cons.mp h1 with ⟨hhead, htail⟩
    refine List.pairwise_cons.mpr ⟨?_, ih htail (fun x hx => h2 x (List.mem_cons_of_mem _ hx))⟩
    intro b hb
    have h3 := h2 e (List.mem_cons_self _ _)
    have h4 := hhead b hb
    omega

end Redactor

namespace PySort

theorem insertBy_all_stays {α : Type} {stays : α → α → Bool} {x : α} :
    ∀ l : List α, (∀ b ∈ l, stays b x = true) → insertBy stays x l = l ++ [x] := by
  intro l
  induction l with
  | nil => intro _; rfl
  | cons b bs ih =>
    intro h
    simp only [insertBy]
    rw [if_pos (h b (List.mem_cons_self _ _)),
      ih fun c hc => h c (List.mem_cons_of_mem _ hc)]
    rfl

end PySort

/-- On a list with strictly increasing starts, Python's
`sorted(..., key=start, reverse=True)` is exactly list reversal. -/
theorem sortBy_desc_of_strict :
    ∀ es : List PyEntity,
      (es.Pairwise fun a b => a.start < b.start) →
      PySort.sortBy (fun a b : PyEntity => b.start < a.start) es = es.reverse := by
  intro es
  induction es with
  | nil => intro _; rfl
  | cons e rest ih =>
    intro hp
    rcases List.pairwise_cons.mp hp with ⟨hhead, htail⟩
    simp only [PySort.sortBy]
    rw [ih htail]
    rw [PySort.insertBy_all_stays rest.reverse (fun b hb => by
      simpa using hhead b (List.mem_reverse.mp hb))]
    simp

namespace Redactor

/-- `Redactor.redact` with no label filter, on a sorted non-overlapping
entity list with in-range nonempty spans: the redacted text is the
interleaving `expText` and the mapping is `expMap`. -/
theorem redact_eq_exp (T : List Char) (es : List PyEntity)
    (hsorted : es.Pairwise fun a b => a.«end» ≤ b.start)
    (hwf : ∀ e ∈ es, e.start < e.«end» ∧ e.«end» ≤ T.length) :
    redact T es none = (expText T es, expMap es) := by
  have hstrict := pairwise_start_lt hsorted (fun e he => (hwf e he).1)
  have hwf' : ∀ e ∈ es, e.start ≤ e.«end» ∧ e.«end» ≤ T.length :=
    fun e he => ⟨le_of_lt (hwf e he).1, (hwf e he).2⟩
  refine Prod.ext ?_ ?_
  · show ((PySort.sortBy (fun a b : PyEntity => b.start < a.start) es).foldl redactStep
      { redacted_text := T, placeholder_map := [], label_counts := fun _ => 0 }).redacted_text =
      expText T es
    rw [sortBy_desc_of_strict es hstrict, List.foldl_reverse]
    exact foldr_text T es hsorted hwf'
  · show ((PySort.sortBy (fun a b : PyEntity => b.start < a.start) es).foldl redactStep
      { redacted_text := T, placeholder_map := [], label_counts := fun _ => 0 }).placeholder_map =
      expMap es
    rw [sortBy_desc_of_strict es hstrict, List.foldl_reverse]
    exact (foldr_map_counts T es).1

end Redactor

/-! ## Restoration undoes redaction -/

theorem expMap_keys_bracketShaped {es : List PyEntity}
    (hlab : ∀ e ∈ es, '[' ∉ e.label ∧ ']' ∉ e.label) :
    ∀ pv ∈ Redactor.expMap es, bracketShaped pv.1 := by
  intro pv hpv
  obtain ⟨pre, e, post, heq, rfl⟩ := Redactor.expMap_mem_spec es pv hpv
  have hmem : e ∈ es := by
    rw [heq]
    exact List.mem_append_right _ (List.mem_cons_self _ _)
  exact Redactor.placeholderOf_bracketShaped (hlab e hmem).1 (hlab e hmem).2 _

/-- Glueing a middle slice back: `T[a:b] ++ T[b:] = T[a:]`. -/
theorem slice_append_drop {T : List Char} {a b : Nat} (hab : a ≤ b)
    (hbT : b ≤ T.length) : (T.take b).drop a ++ T.drop b = T.drop a := by
  conv_rhs => rw [← List.take_append_drop b T]
  rw [List.drop_append_eq_append_drop]
  rw [show a - (T.take b).length = 0 from by simp only [List.length_take]; omega,
    List.drop_zero]

theorem expText_drop (T : List Char) (e : PyEntity) (rest : List PyEntity)
    {k : Nat} (hk : k ≤ e.start) (hs : e.start ≤ T.length) :
    (Redactor.expText T (e :: rest)).drop k =
      (T.take e.start).drop k ++
        (Redactor.expPh e rest ++ (Redactor.expText T rest).drop e.«end») := by
  show (T.take e.start ++ Redactor.expPh e rest ++
      (Redactor.expText T rest).drop e.«end»).drop k = _
  rw [List.append_assoc, List.drop_append_eq_append_drop]
  rw [show k - (T.take e.start).length = 0 from by simp only [List.length_take]; omega,
    List.drop_zero]

/-- Restoring the expected redacted text with the expected map recovers the
original document (stated for every tail `T[k:]` to carry the induction):
requires that the document contains none of the generated placeholders and
that entity labels are bracket-free. -/
theorem Restorer.restore_expText (T : List Char) :
    ∀ (es : List PyEntity) (k : Nat),
      es.Pairwise (fun a b => a.«end» ≤ b.start) →
      (∀ e ∈ es, e.start < e.«end» ∧ e.«end» ≤ T.length ∧
        e.entity = (T.take e.«end»).drop e.start ∧ '[' ∉ e.label ∧ ']' ∉ e.label) →
      (∀ pv ∈ Redactor.expMap es, PyStr.NoOcc pv.1 T) →
      (∀ r rs, es = r :: rs → k ≤ r.start) →
      Restorer.restore ((Redactor.expText T es).drop k) (Redactor.expMap es) =
        T.drop k := by
  intro es
  induction es with
  | nil => intro k _ _ _ _; rfl
  | cons e rest ih =>
    intro k hp hb hph hk
    rcases List.pairwise_cons.mp hp with ⟨hhead, htail⟩
    obtain ⟨hlt, hle, hval, hlo, hlc⟩ := hb e (List.mem_cons_self _ _)
    have hbt : ∀ x ∈ rest, x.start < x.«end» ∧ x.«end» ≤ T.length ∧
        x.entity = (T.take x.«end»).drop x.start ∧ '[' ∉ x.label ∧ ']' ∉ x.label :=
      fun x hx => hb x (List.mem_cons_of_mem _ hx)
    have hk' : k ≤ e.start := hk e rest rfl
    have hsT : e.start ≤ T.length := by omega
    have hphB : bracketShaped (Redactor.expPh e rest) :=
      Redactor.placeholderOf_bracketShaped hlo hlc _
    have hmemPh : (Redactor.expPh e rest, e.entity) ∈ Redactor.expMap (e :: rest) :=
      List.mem_append_right _ (List.mem_singleton.mpr rfl)
    have hphT : PyStr.NoOcc (Redactor.expPh e rest) T := hph _ hmemPh
    have hphm : ∀ pv ∈ Redactor.expMap rest, PyStr.NoOcc pv.1 T :=
      fun pv hpv => hph pv (List.mem_append_left _ hpv)
    have hlabs : ∀ x ∈ rest, '[' ∉ x.label ∧ ']' ∉ x.label :=
      fun x hx => ⟨(hbt x hx).2.2.2.1, (hbt x hx).2.2.2.2⟩
    have hkeys : ∀ pv ∈ Redactor.expMap rest,
        bracketShaped pv.1 ∧ pv.1 ≠ Redactor.expPh e rest ∧
          PyStr.NoOcc pv.1 ((T.take e.start).drop k) := by
      intro pv hpv
      exact ⟨expMap_keys_bracketShaped hlabs pv hpv,
        Redactor.expPh_fresh e rest pv hpv,
        PyStr.noOcc_drop (PyStr.noOcc_take (hphm pv hpv) e.start) k⟩
    rw [expText_drop T e rest hk' hsT]
    rw [← List.append_assoc]
    show Restorer.restore _ (Redactor.expMap rest ++ [(Redactor.expPh e rest, e.entity)]) = _
    rw [Restorer.restore_append]
    rw [Restorer.restore_block (Redactor.expMap rest) ((T.take e.start).drop k)
      (Redactor.expPh e rest) hphB hkeys ((Redactor.expText T rest).drop e.«end»)]
    have hIH : Restorer.restore ((Redactor.expText T rest).drop e.«end»)
        (Redactor.expMap rest) = T.drop e.«end» := by
      refine ih e.«end» htail hbt hphm ?_
      intro r rs hr
      have := hhead r (by rw [hr]; exact List.mem_cons_self _ _)
      omega
    rw [hIH]
    show Restorer.restoreStep _ (Redactor.expPh e rest, e.entity) = _
    simp only [Restorer.restoreStep]
    have hsub : PyStr.isSubstr (Redactor.expPh e rest)
        ((T.take e.start).drop k ++ Redactor.expPh e rest ++ T.drop e.«end») = true := by
      refine PyStr.isSubstr_true_of_occ ((T.take e.start).drop k).length ?_
      rw [List.append_assoc, List.drop_left]
      exact List.prefix_append _ _
    rw [if_pos hsub]
    simp only [PyStr.replace]
    rw [if_neg hphB.not_nil]
    rw [replaceCore_at_block hphB ((T.take e.start).drop k) (T.drop e.«end»)
      (PyStr.noOcc_drop (PyStr.noOcc_take hphT e.start) k)
      (PyStr.noOcc_drop hphT e.«end»)]
    rw [hval, List.append_assoc, slice_append_drop (le_of_lt hlt) hle,
      slice_append_drop hk' hsT]

/-- C1 counterexample — as universally stated, the round trip fails: when
the original document itself contains a placeholder-shaped token that
collides with a generated placeholder, restoration rewrites both
occurrences.  `T = "[PERSON_A] Bob"` with the single detected entity
`"Bob"` at span [11,14) (value equal to `T[11:14]`, trivially
non-overlapping) redacts to `"[PERSON_A] [PERSON_A]"` and restores to
`"Bob Bob" ≠ T`. -/
theorem claim_C1_cex :
    (∀ e ∈ [PyEntity.mk (strL "Bob") (strL "PERSON") 11 14],
      e.entity = ((strL "[PERSON_A] Bob").take e.«end»).drop e.start ∧
      e.start < e.«end» ∧ e.«end» ≤ (strL "[PERSON_A] Bob").length) ∧
    Restorer.restore
      (Redactor.redact (strL "[PERSON_A] Bob")
        [PyEntity.mk (strL "Bob") (strL "PERSON") 11 14] none).1
      (Redactor.redact (strL "[PERSON_A] Bob")
        [PyEntity.mk (strL "Bob") (strL "PERSON") 11 14] none).2 = strL "Bob Bob" ∧
    strL "Bob Bob" ≠ strL "[PERSON_A] Bob" := by
  decide

/-- C1 (amended) — Round trip: for any document `T` and entity list
detected in `T` (listed in ascending start order, pairwise non-overlapping,
nonempty in-range spans, each value equal to `T[start:end]`, labels free of
`[` and `]`), *provided no generated placeholder occurs as a substring of
`T`*, restoring the redacted text with the mapping produced by the same
`redact` call yields `T` exactly.  (All text-redactor entries are
restorable; the original claim's extra premise is forced by
`claim_C1_cex`.) -/
theorem claim_C1 (T : List Char) (es : List PyEntity)
    (hsorted : es.Pairwise fun a b => a.«end» ≤ b.start)
    (hwf : ∀ e ∈ es, e.start < e.«end» ∧ e.«end» ≤ T.length)
    (hval : ∀ e ∈ es, e.entity = (T.take e.«end»).drop e.start)
    (hlab : ∀ e ∈ es, '[' ∉ e.label ∧ ']' ∉ e.label)
    (hfresh : ∀ pv ∈ (Redactor.redact T es none).2, PyStr.isSubstr pv.1 T = false) :
    Restorer.restore (Redactor.redact T es none).1 (Redactor.redact T es none).2 = T := by
  have hredact := Redactor.redact_eq_exp T es hsorted hwf
  rw [hredact] at hfresh ⊢
  have hph : ∀ pv ∈ Redactor.expMap es, PyStr.NoOcc pv.1 T := fun pv hpv =>
    (PyStr.isSubstr_false_iff pv.1 T).mp (hfresh pv hpv)
  have := Restorer.restore_expText T es 0 hsorted
    (fun e he => ⟨(hwf e he).1, (hwf e he).2, hval e he, (hlab e he).1, (hlab e he).2⟩)
    hph (fun r rs _ => Nat.zero_le _)
  simpa using this

theorem claim_C1_witness :
    Restorer.restore
      (Redactor.redact (strL "Call Bob at bob@x.com ok")
        [PyEntity.mk (strL "Bob") (strL "PERSON") 5 8,
         PyEntity.mk (strL "bob@x.com") (strL "EMAIL") 12 21] none).1
      (Redactor.redact (strL "Call Bob at bob@x.com ok")
        [PyEntity.mk (strL "Bob") (strL "PERSON") 5 8,
         PyEntity.mk (strL "bob@x.com") (strL "EMAIL") 12 21] none).2 =
      strL "Call Bob at bob@x.com ok" :=
  claim_C1 (strL "Call Bob at bob@x.com ok")
    [PyEntity.mk (strL "Bob") (strL "PERSON") 5 8,
     PyEntity.mk (strL "bob@x.com") (strL "EMAIL") 12 21]
    (by decide) (by decide) (by decide) (by decide) (by decide)

/-! ## Label filtering and suffix order -/

namespace Redactor

/-- The mapping built by a no-filter `redact` call, over any entity list:
the map of the descending-sorted processing list, read back in ascending
order. -/
theorem redact_none_map (T : List Char) (es : List PyEntity) :
    (redact T es none).2 =
      expMap ((PySort.sortBy (fun a b : PyEntity => b.start < a.start) es).reverse) := by
  have key : ∀ ds : List PyEntity,
      (ds.foldl redactStep
        { redacted_text := T, placeholder_map := [], label_counts := fun _ => 0 }).placeholder_map =
        expMap ds.reverse := by
    intro ds
    conv_lhs => rw [← List.reverse_reverse ds]
    rw [List.foldl_reverse]
    exact (foldr_map_counts T ds.reverse).1
  exact key _

/-- Every entry of a no-filter `redact` mapping stems from a processed
entity: its value is that entity's text and its key is a placeholder built
from that entity's label. -/
theorem redact_none_map_mem (T : List Char) (es : List PyEntity) :
    ∀ pv ∈ (redact T es none).2,
      ∃ e ∈ es, pv.2 = e.entity ∧ ∃ c, pv.1 = placeholderOf e.label c := by
  intro pv hpv
  rw [redact_none_map] at hpv
  obtain ⟨pre, e, post, heq, rfl⟩ := expMap_mem_spec _ pv hpv
  refine ⟨e, ?_, rfl, cnt e.label post, rfl⟩
  have hmem : e ∈ (PySort.sortBy (fun a b : PyEntity => b.start < a.start) es).reverse := by
    rw [heq]
    exact List.mem_append_right _ (List.mem_cons_self _ _)
  rw [List.mem_reverse] at hmem
  exact (PySort.perm_sortBy _ es).mem_iff.mp hmem

/-- An explicit decomposition pinpoints its entity's map entry. -/
theorem expMap_mem_of_decomp :
    ∀ (pre : List PyEntity) (e : PyEntity) (post : List PyEntity),
      (expPh e post, e.entity) ∈ expMap (pre ++ e :: post) := by
  intro pre
  induction pre with
  | nil =>
    intro e post
    exact List.mem_append_right _ (List.mem_singleton.mpr rfl)
  | cons p pre' ih =>
    intro e post
    exact List.mem_append_left _ (ih e post)

end Redactor

/-- C9 counterexample — the claim fails for a supplied *empty*
`labels_to_redact` list: `if labels_to_redact:` is falsy on `[]` in Python,
so every entity is redacted even though no label is in the supplied list. -/
theorem claim_C9_cex :
    ((strL "PERSON") ∉ ([] : List (List Char))) ∧
    Redactor.redact (strL "Bob") [PyEntity.mk (strL "Bob") (strL "PERSON") 0 3]
        (some []) =
      (strL "[PERSON_A]", [(strL "[PERSON_A]", strL "Bob")]) ∧
    strL "[PERSON_A]" ≠ strL "Bob" ∧
    ([(strL "[PERSON_A]", strL "Bob")] : List (List Char × List Char)) ≠ [] := by
  decide

/-- C9 (amended) — when a *non-empty* `labels_to_redact` list is supplied,
redaction behaves exactly as redacting the sub-list of entities whose label
is listed: no mapping entry stems from a filtered-out entity (every entry's
value and placeholder come from an entity with a listed label), and — under
the sorted/non-overlap/in-range hypotheses — the output text is the
interleaving `expText` of the filtered entities only, so every character
outside the filtered entities' spans, including the spans of unlisted
entities, is the original document's. -/
theorem claim_C9 (T : List Char) (es : List PyEntity) (L : List (List Char))
    (hL : L ≠ []) :
    Redactor.redact T es (some L) =
      Redactor.redact T (es.filter fun e => decide (e.label ∈ L)) none ∧
    (∀ pv ∈ (Redactor.redact T es (some L)).2,
      ∃ e ∈ es, e.label ∈ L ∧ pv.2 = e.entity ∧
        ∃ c, pv.1 = Redactor.placeholderOf e.label c) ∧
    ((es.Pairwise fun a b => a.«end» ≤ b.start) →
      (∀ e ∈ es, e.start < e.«end» ∧ e.«end» ≤ T.length) →
      Redactor.redact T es (some L) =
        (Redactor.expText T (es.filter fun e => decide (e.label ∈ L)),
         Redactor.expMap (es.filter fun e => decide (e.label ∈ L)))) := by
  have h1 : Redactor.redact T es (some L) =
      Redactor.redact T (es.filter fun e => decide (e.label ∈ L)) none := by
    simp only [Redactor.redact, if_neg hL]
  refine ⟨h1, ?_, ?_⟩
  · intro pv hpv
    rw [h1] at hpv
    obtain ⟨e, hmem, hv, c, hp⟩ := Redactor.redact_none_map_mem T _ pv hpv
    rcases List.mem_filter.mp hmem with ⟨hmem', hlab⟩
    exact ⟨e, hmem', by simpa using hlab, hv, c, hp⟩
  · intro hsorted hwf
    rw [h1]
    exact Redactor.redact_eq_exp T _ (hsorted.filter _)
      (fun e he => hwf e (List.mem_of_mem_filter he))

theorem claim_C9_witness :
    Redactor.redact (strL "Bob") [PyEntity.mk (strL "Bob") (strL "PERSON") 0 3]
      (some [strL "EMAIL"]) = Redactor.redact (strL "Bob") [] none := by
  have h := (claim_C9 (strL "Bob") [PyEntity.mk (strL "Bob") (strL "PERSON") 0 3]
    [strL "EMAIL"] (by decide)).1
  rw [h]
  have hf : ([PyEntity.mk (strL "Bob") (strL "PERSON") 0 3].filter
      fun e => decide (e.label ∈ [strL "EMAIL"])) = [] := by decide
  rw [hf]

/-- C10 — Suffix assignment order: placeholders are generated while
processing entities in descending start order, so (for sorted,
non-overlapping, in-range entity lists) the mapping is `expMap`: the entity
at decomposition `pre ++ e :: post` gets the suffix for count
`cnt e.label post` — the number of *later* (greater-start) same-label
entities — and in particular the same-label entity with the greatest start
receives the first suffix `_A` (count 0), while the first-appearing one
receives the last suffix. -/
theorem claim_C10 (T : List Char) (es : List PyEntity)
    (hsorted : es.Pairwise fun a b => a.«end» ≤ b.start)
    (hwf : ∀ e ∈ es, e.start < e.«end» ∧ e.«end» ≤ T.length) :
    (Redactor.redact T es none).2 = Redactor.expMap es ∧
    (∀ pre e post, es = pre ++ e :: post →
      (Redactor.placeholderOf e.label (Redactor.cnt e.label post), e.entity) ∈
        (Redactor.redact T es none).2) ∧
    (∀ e ∈ es, (∀ e' ∈ es, e'.label = e.label → e'.start ≤ e.start) →
      (Redactor.placeholderOf e.label 0, e.entity) ∈ (Redactor.redact T es none).2) := by
  have hmap : (Redactor.redact T es none).2 = Redactor.expMap es :=
    congrArg Prod.snd (Redactor.redact_eq_exp T es hsorted hwf)
  have hstrict := Redactor.pairwise_start_lt hsorted (fun e he => (hwf e he).1)
  refine ⟨hmap, ?_, ?_⟩
  · intro pre e post heq
    rw [hmap, heq]
    exact Redactor.expMap_mem_of_decomp pre e post
  · intro e hmem hmax
    obtain ⟨pre, post, heq⟩ := List.append_of_mem hmem
    have hcnt : Redactor.cnt e.label post = 0 := by
      rcases hf : post.filter (fun x => decide (x.label = e.label)) with _ | ⟨x, xs⟩
      · simp [Redactor.cnt, hf]
      · exfalso
        have hx : x ∈ post.filter (fun x => decide (x.label = e.label)) := by
          rw [hf]
          exact List.mem_cons_self _ _
        rcases List.mem_filter.mp hx with ⟨hxp, hxl⟩
        have hxes : x ∈ es := by
          rw [heq]
          exact List.mem_append_right _ (List.mem_cons_of_mem _ hxp)
        have hle := hmax x hxes (by simpa using hxl)
        have hgt : e.start < x.start := by
          rw [heq] at hstrict
          have := (List.pairwise_append.mp hstrict).2.1
          exact (List.pairwise_cons.mp this).1 x hxp
        omega
    have := Redactor.expMap_mem_of_decomp pre e post
    rw [hmap, heq]
    unfold Redactor.expPh at this
    rw [hcnt] at this
    exact this

theorem claim_C10_witness :
    (Redactor.redact (strL "Ann met Bob")
      [PyEntity.mk (strL "Ann") (strL "PERSON") 0 3,
       PyEntity.mk (strL "Bob") (strL "PERSON") 8 11] none).2 =
      [(strL "[PERSON_A]", strL "Bob"), (strL "[PERSON_B]", strL "Ann")] := by
  have h := claim_C10 (strL "Ann met Bob")
    [PyEntity.mk (strL "Ann") (strL "PERSON") 0 3,
     PyEntity.mk (strL "Bob") (strL "PERSON") 8 11] (by decide) (by decide)
  rw [h.1]
  decide

/-- C4 — Deduplication: the deduplicated output is ordered by
`(start ascending, end descending)` (hence by ascending start), is pairwise
non-overlapping (every earlier accepted entity ends at or before a later
one starts — equivalently each accepted candidate starts at or after the
end of the previously accepted one, so fully or partially contained
candidates are dropped), and consists only of input candidates. -/
theorem claim_C4 (entities : List PyEntity) :
    ((PIIDetector.deduplicate_and_sort_entities entities).Pairwise
      fun a b => a.start < b.start ∨ (a.start = b.start ∧ b.«end» ≤ a.«end»)) ∧
    ((PIIDetector.deduplicate_and_sort_entities entities).Pairwise
      fun a b => a.start ≤ b.start) ∧
    ((PIIDetector.deduplicate_and_sort_entities entities).Pairwise
      fun a b => a.«end» ≤ b.start) ∧
    (∀ e ∈ PIIDetector.deduplicate_and_sort_entities entities, e ∈ entities) := by
  by_cases hnil : entities = []
  · subst hnil
    simp [PIIDetector.deduplicate_and_sort_entities]
  · have hkey : (PySort.sortBy PIIDetector.keyLt entities).Pairwise
        (fun a b => a.start < b.start ∨ (a.start = b.start ∧ b.«end» ≤ a.«end»)) := by
      refine PySort.pairwise_sortBy ?_ ?_ ?_ entities
      · intro a b h
        simp only [PIIDetector.keyLt, Bool.or_eq_false_iff, Bool.and_eq_false_iff] at h
        rcases h with ⟨h1, h2⟩
        simp only [decide_eq_false_iff_not, beq_eq_false_iff_ne, ne_eq] at h1 h2
        rcases h2 with h2 | h2 <;> omega
      · intro a b h
        simp only [PIIDetector.keyLt, Bool.or_eq_true, Bool.and_eq_true, decide_eq_true_eq,
          beq_iff_eq] at h
        omega
      · intro a b c h1 h2
        omega
    have hout : PIIDetector.deduplicate_and_sort_entities entities =
        PIIDetector.dedupScan (PySort.sortBy PIIDetector.keyLt entities) (-1) := by
      simp [PIIDetector.deduplicate_and_sort_entities, hnil]
    have hsub := PIIDetector.dedupScan_sublist (PySort.sortBy PIIDetector.keyLt entities) (-1)
    refine ⟨?_, ?_, ?_, ?_⟩
    · rw [hout]
      exact hkey.sublist hsub
    · rw [hout]
      exact (hkey.sublist hsub).imp (by intro a b h; omega)
    · rw [hout]
      exact PIIDetector.dedupScan_pairwise _ _
    · intro e he
      rw [hout] at he
      exact (PySort.perm_sortBy PIIDetector.keyLt entities).mem_iff.mp (hsub.mem he)

/-- C5 counterexample — the claim "counts 0–25 map to the letters A–Z and
any count of 26 or more maps to the decimal count itself … holds for every
component that generates placeholders" fails for `ImageDetector`:
`detect_faces` builds `f'[FACE_{chr(64 + counter)}]'`, so its 27th face gets
the character `'['` (code point 91), not the decimal string `"26"` which the
text redactor's scheme would produce. -/
theorem claim_C5_cex :
    ImageDetector.facePlaceholder 27 = strL "[FACE_[]" ∧
    ImageDetector.faceIdChar 27 = '[' ∧
    ImageDetector.facePlaceholder 27 ≠ strL "[FACE_26]" ∧
    Redactor.placeholderOf (strL "FACE") 26 = strL "[FACE_26]" := by
  decide

/-- C5 (amended) — Placeholder ID encoding for
`Redactor._generate_placeholder_id`: counts 0–25 map to the letters A–Z and
counts ≥ 26 map to the decimal count itself, so 27 same-type entities
produce the IDs `A..Z, 26` in that order.  `ImageDetector` instead uses
`chr(64 + counter)`, which agrees with the letter scheme for its first 26
entities of a kind but has no decimal fallback beyond them. -/
theorem claim_C5 :
    ((List.range 27).map Redactor.generate_placeholder_id =
      (strL "ABCDEFGHIJKLMNOPQRSTUVWXYZ").map (fun c => [c]) ++ [strL "26"]) ∧
    (∀ count : Nat, count < 26 →
      Redactor.generate_placeholder_id count = [Char.ofNat ('A'.toNat + count)]) ∧
    (∀ count : Nat, 26 ≤ count →
      Redactor.generate_placeholder_id count = Nat.toDigits 10 count) ∧
    (∀ n : Nat, 1 ≤ n → n ≤ 26 →
      ImageDetector.facePlaceholder n = Redactor.placeholderOf (strL "FACE") (n - 1)) := by
  refine ⟨by decide, ?_, ?_, ?_⟩
  · intro count hc
    simp [Redactor.generate_placeholder_id, hc]
  · intro count hc
    simp [Redactor.generate_placeholder_id, Nat.not_lt.mpr hc]
  · intro n h1 h2
    interval_cases n <;> decide

theorem claim_C5_witness :
    Redactor.generate_placeholder_id 3 = [Char.ofNat ('A'.toNat + 3)] ∧
    Redactor.generate_placeholder_id 26 = Nat.toDigits 10 26 ∧
    ImageDetector.facePlaceholder 2 = Redactor.placeholderOf (strL "FACE") 1 :=
  ⟨claim_C5.2.1 3 (by decide), claim_C5.2.2.1 26 (by decide),
   claim_C5.2.2.2 2 (by decide) (by decide)⟩

/-- C6 — Empty entity list: text redaction returns the unmodified text and
an empty mapping (whatever `labels_to_redact` is), image redaction returns
the unmodified loaded image and an empty mapping; image redaction fails
exactly when the document cannot be opened (`loaded = none`), and never
fails on a loaded image. -/
theorem claim_C6 :
    (∀ (text : List Char) (labels_to_redact : Option (List (List Char))),
      Redactor.redact text [] labels_to_redact = (text, [])) ∧
    (∀ (Img : Type) (cfg : ImageRedactorConfig) (image : Img),
      ImageRedactor.redact cfg (some image) [] = Except.ok (image, [], [])) ∧
    (∀ (Img : Type) (cfg : ImageRedactorConfig) (entities : List Entity),
      @ImageRedactor.redact Img cfg none entities =
        Except.error (strL "InputError: image file not found or invalid")) ∧
    (∀ (Img : Type) (cfg : ImageRedactorConfig) (image : Img) (entities : List Entity),
      ∃ result, ImageRedactor.redact cfg (some image) entities = Except.ok result) := by
  refine ⟨?_, ?_, ?_, ?_⟩
  · intro text labels
    rcases labels with _ | ls
    · rfl
    · by_cases hls : ls = []
      · subst hls; rfl
      · simp [Redactor.redact, hls, PySort.sortBy]
  · intro Img cfg image
    rfl
  · intro Img cfg entities
    rfl
  · intro Img cfg image entities
    by_cases hent : entities = []
    · subst hent
      exact ⟨(image, [], []), rfl⟩
    · rcases hfold : entities.foldl (ImageRedactor.redactLoop cfg) ([], []) with ⟨ops, mapping⟩
      exact ⟨(image, ops, mapping), by simp [ImageRedactor.redact, hent, hfold]⟩

/-! ## The image redaction loop -/

namespace ImageRedactor

theorem foldl_ops (cfg : ImageRedactorConfig) :
    ∀ (entities : List Entity) (ops₀ : List DrawOp) (m₀ : List (List Char × MapEntry)),
      (entities.foldl (redactLoop cfg) (ops₀, m₀)).1 =
        ops₀ ++ entities.flatMap (entityOps cfg) := by
  intro entities
  induction entities with
  | nil => intro ops₀ m₀; simp
  | cons e rest ih =>
    intro ops₀ m₀
    rcases hb : e.bbox with _ | b
    · simp only [List.foldl_cons, redactLoop, hb]
      rw [ih ops₀ m₀]
      simp [entityOps, hb]
    · simp only [List.foldl_cons, redactLoop, hb]
      rw [ih]
      simp [entityOps, hb]

/-- The placeholders of the entities the loop actually records (those with a
bounding box), in order. -/
theorem foldl_mapping (cfg : ImageRedactorConfig) :
    ∀ (entities : List Entity) (ops₀ : List DrawOp) (m₀ : List (List Char × MapEntry)),
      ((m₀.map Prod.fst) ++
        entities.filterMap (fun e => e.bbox.map fun _ => e.placeholder)).Nodup →
      (entities.foldl (redactLoop cfg) (ops₀, m₀)).2 =
        m₀ ++ entities.filterMap entityEntry := by
  intro entities
  induction entities with
  | nil => intro ops₀ m₀ _; simp
  | cons e rest ih =>
    intro ops₀ m₀ hnd
    rcases hb : e.bbox with _ | b
    · simp only [List.foldl_cons, redactLoop, hb]
      rw [ih ops₀ m₀ (by simpa [hb] using hnd)]
      simp [entityEntry, hb]
    · have hnd' : ((m₀.map Prod.fst) ++
          (e.placeholder :: rest.filterMap (fun e => e.bbox.map fun _ => e.placeholder))).Nodup := by
        simpa [hb] using hnd
      have hfresh : ∀ kv ∈ m₀, kv.1 ≠ e.placeholder := by
        intro kv hkv heq
        have hdisj := (List.nodup_append.mp hnd').2.2
        exact hdisj (heq ▸ List.mem_map_of_mem Prod.fst hkv) (List.mem_cons_self _ _)
      simp only [List.foldl_cons, redactLoop, hb]
      rw [dictInsert_of_fresh m₀ e.placeholder _ hfresh]
      rw [ih _ (m₀ ++ [(e.placeholder, _)]) ?_]
      · simp [entityEntry, hb]
      · simp only [List.map_append, List.map_cons, List.map_nil]
        have : (m₀.map Prod.fst) ++ ([e.placeholder] ++
            rest.filterMap (fun e => e.bbox.map fun _ => e.placeholder)) =
            ((m₀.map Prod.fst) ++ [e.placeholder]) ++
            rest.filterMap (fun e => e.bbox.map fun _ => e.placeholder) := by
          simp
        rw [← this]
        simpa using hnd'

theorem count_one_of_nodup (l : List (List Char)) (a : List Char)
    (hnd : l.Nodup) (ha : a ∈ l) : l.count a = 1 := by
  induction l with
  | nil => simp at ha
  | cons b bs ih =>
    rcases List.mem_cons.mp ha with rfl | ha'
    · have hb : a ∉ bs := (List.nodup_cons.mp hnd).1
      rw [List.count_cons_self]
      have hz : bs.count a = 0 := List.count_eq_zero.mpr hb
      omega
    · have hne : a ≠ b := by
        rintro rfl
        exact (List.nodup_cons.mp hnd).1 ha'
      rw [List.count_cons_of_ne hne]
      exact ih (List.nodup_cons.mp hnd).2 ha'

theorem filterMap_keys_sublist :
    ∀ entities : List Entity,
      (entities.filterMap (fun e => e.bbox.map fun _ => e.placeholder)).Sublist
        (entities.map Entity.placeholder) := by
  intro entities
  induction entities with
  | nil => simp
  | cons e rest ih =>
    rcases hb : e.bbox with _ | b
    · simp only [List.filterMap_cons, hb, Option.map_none, List.map_cons]
      exact ih.trans (List.sublist_cons_self _ _)
    · simp only [List.filterMap_cons, hb, Option.map_some, List.map_cons]
      exact ih.cons₂ _

theorem map_fst_filterMap_entityEntry :
    ∀ entities : List Entity,
      (entities.filterMap entityEntry).map Prod.fst =
        entities.filterMap (fun e => e.bbox.map fun _ => e.placeholder) := by
  intro entities
  induction entities with
  | nil => simp
  | cons e rest ih =>
    rcases hb : e.bbox with _ | b <;>
      simp [List.filterMap_cons, entityEntry, hb, ih]

end ImageRedactor

/-- C8 — Small-box policy: an image entity whose box is below the
legibility threshold still gets the blackout rectangle (and the border
rectangle when borders are configured), its label text is skipped (no text
drawing operation is emitted for it), redaction succeeds without an
exception, and the entity still yields exactly one mapping record. -/
theorem claim_C8 {Img : Type} (cfg : ImageRedactorConfig) (image : Img)
    (entities : List Entity) (e : Entity) (b : BBox)
    (hmem : e ∈ entities) (hbox : e.bbox = some b)
    (hsmall : b.x2 - b.x1 < 10 ∨ b.y2 - b.y1 < 10)
    (hnodup : (entities.map Entity.placeholder).Nodup) :
    ∃ ops mapping,
      ImageRedactor.redact cfg (some image) entities = Except.ok (image, ops, mapping) ∧
      DrawOp.rect b (strL "black") ∈ ops ∧
      (cfg.draw_borders = true →
        DrawOp.rect ⟨b.x1 - cfg.border_width, b.y1 - cfg.border_width,
                     b.x2 + cfg.border_width, b.y2 + cfg.border_width⟩ cfg.border_color ∈ ops) ∧
      ImageRedactor.draw_label_text b e.placeholder = [] ∧
      (∀ cx cy s, DrawOp.txt cx cy s ∉ ImageRedactor.entityOps cfg e) ∧
      (mapping.map Prod.fst).count e.placeholder = 1 := by
  have hne : entities ≠ [] := by
    intro h
    subst h
    simp at hmem
  rcases hfold : entities.foldl (ImageRedactor.redactLoop cfg) ([], []) with ⟨ops, mapping⟩
  have hkeysnd : (entities.filterMap (fun e => e.bbox.map fun _ => e.placeholder)).Nodup :=
    hnodup.sublist (ImageRedactor.filterMap_keys_sublist entities)
  have hops : ops = entities.flatMap (ImageRedactor.entityOps cfg) := by
    have h := ImageRedactor.foldl_ops cfg entities [] []
    rw [hfold] at h
    simpa using h
  have hmap : mapping = entities.filterMap ImageRedactor.entityEntry := by
    have h := ImageRedactor.foldl_mapping cfg entities [] [] (by simpa using hkeysnd)
    rw [hfold] at h
    simpa using h
  have hlabel : ImageRedactor.draw_label_text b e.placeholder = [] := by
    simp only [ImageRedactor.draw_label_text]
    rw [if_pos hsmall]
  refine ⟨ops, mapping, ?_, ?_, ?_, hlabel, ?_, ?_⟩
  · simp [ImageRedactor.redact, hne, hfold]
  · rw [hops]
    refine List.mem_flatMap.mpr ⟨e, hmem, ?_⟩
    simp [ImageRedactor.entityOps, hbox, ImageRedactor.draw_blackout_box]
  · intro hborders
    rw [hops]
    refine List.mem_flatMap.mpr ⟨e, hmem, ?_⟩
    simp [ImageRedactor.entityOps, hbox, ImageRedactor.draw_blackout_box, hborders]
  · intro cx cy s
    by_cases hd : cfg.draw_borders <;>
      simp [ImageRedactor.entityOps, hbox, ImageRedactor.draw_blackout_box, hd, hlabel]
  · rw [hmap, ImageRedactor.map_fst_filterMap_entityEntry]
    refine ImageRedactor.count_one_of_nodup _ _ hkeysnd ?_
    exact List.mem_filterMap.mpr ⟨e, hmem, by simp [hbox]⟩

theorem claim_C8_witness :
    ∃ ops mapping,
      ImageRedactor.redact {} (some ())
        [{ type := strL "FACE", placeholder := strL "[FACE_A]", confidence := 99/100,
           modality := strL "image", bbox := some ⟨0, 0, 5, 40⟩ }] =
        Except.ok ((), ops, mapping) ∧
      DrawOp.rect ⟨0, 0, 5, 40⟩ (strL "black") ∈ ops ∧
      ((ImageRedactorConfig.mk true (strL "red") 2).draw_borders = true →
        DrawOp.rect ⟨-2, -2, 7, 42⟩ (strL "red") ∈ ops) ∧
      ImageRedactor.draw_label_text ⟨0, 0, 5, 40⟩ (strL "[FACE_A]") = [] ∧
      (∀ cx cy s, DrawOp.txt cx cy s ∉ ImageRedactor.entityOps {}
        { type := strL "FACE", placeholder := strL "[FACE_A]", confidence := 99/100,
          modality := strL "image", bbox := some ⟨0, 0, 5, 40⟩ }) ∧
      (mapping.map Prod.fst).count (strL "[FACE_A]") = 1 :=
  claim_C8 {} ()
    [{ type := strL "FACE", placeholder := strL "[FACE_A]", confidence := 99/100,
       modality := strL "image", bbox := some ⟨0, 0, 5, 40⟩ }]
    { type := strL "FACE", placeholder := strL "[FACE_A]", confidence := 99/100,
      modality := strL "image", bbox := some ⟨0, 0, 5, 40⟩ }
    ⟨0, 0, 5, 40⟩ (List.mem_singleton.mpr rfl) rfl (by decide) (by decide)

/-! ## Occurrence counting under restoration (C3) -/

namespace PyStr

theorem countOcc_cons (pat : List Char) (c : Char) (cs : List Char) :
    countOcc pat (c :: cs) =
      (if pat.isPrefixOf (c :: cs) then 1 else 0) + countOcc pat cs := rfl

theorem countOcc_append_left_ge (t : List Char) :
    ∀ (v w : List Char), countOcc t w ≤ countOcc t (v ++ w) := by
  intro v
  induction v with
  | nil => intro w; exact le_refl _
  | cons c v' ih =>
    intro w
    rw [List.cons_append, countOcc_cons]
    have := ih w
    by_cases hb : t.isPrefixOf (c :: (v' ++ w)) = true
    · rw [if_pos hb]; omega
    · rw [if_neg hb]; omega

/-- When no occurrence of `t` starts in the first `k` positions of `s`,
counting occurrences may skip them. -/
theorem countOcc_eq_drop (t : List Char) :
    ∀ (k : Nat) (s : List Char), (∀ i, i < k → ¬ t <+: s.drop i) →
      countOcc t s = countOcc t (s.drop k) := by
  intro k
  induction k with
  | zero => intro s _; rfl
  | succ k ih =>
    intro s h
    rcases s with _ | ⟨c, cs⟩
    · simp
    · rw [countOcc_cons]
      have h0 : ¬ t.isPrefixOf (c :: cs) = true := by
        intro hb
        exact h 0 (Nat.succ_pos k) (by simpa using (List.isPrefixOf_iff_prefix).mp hb)
      rw [if_neg h0, List.drop_succ_cons]
      have := ih cs (fun i hi => by simpa using h (i + 1) (by omega))
      omega

/-- Replacing one bracket-shaped token by anything never removes an
occurrence of a different bracket-shaped token: distinct bracket-shaped
tokens cannot overlap, so every original occurrence of `t` survives the
scan of `str.replace` on `q`. -/
theorem countOcc_replaceCore_ge {t q : List Char} (w : List Char)
    (ht : bracketShaped t) (hq : bracketShaped q) (hne : t ≠ q) :
    ∀ (n : Nat) (s : List Char), s.length ≤ n →
      countOcc t s ≤ countOcc t (replaceCore q w s) := by
  intro n
  induction n with
  | zero =>
    intro s hs
    have hnil : s = [] := List.length_eq_zero.mp (Nat.le_zero.mp hs)
    subst hnil
    rw [replaceCore_nil]
  | succ n ih =>
    intro s hs
    rcases s with _ | ⟨c, cs⟩
    · rw [replaceCore_nil]
    · rw [replaceCore_cons]
      by_cases hg : q ≠ [] ∧ q.isPrefixOf (c :: cs)
      · rw [if_pos hg]
        have hqpre : q <+: c :: cs := (List.isPrefixOf_iff_prefix).mp hg.2
        obtain ⟨r, hr⟩ := hqpre
        have hdrop : (c :: cs).drop q.length = r := by
          rw [← hr, List.drop_left]
        have hnoEarly : ∀ i, i < q.length → ¬ t <+: ((c :: cs).drop i) := by
          intro i hi hpre
          rcases Nat.eq_zero_or_pos i with h0 | hipos
          · subst h0
            rw [List.drop_zero, ← hr] at hpre
            exact hne (bracket_head_eq ht hq hpre)
          · rw [← hr] at hpre
            exact bracket_inner_not ht hq hipos hi hpre
        have hskip := countOcc_eq_drop t q.length (c :: cs) hnoEarly
        rw [hdrop] at hskip
        rw [hskip]
        have hrn : r.length ≤ n := by
          have h2 : 2 ≤ q.length := hq.two_le
          have hlen : (c :: cs).length = q.length + r.length := by
            rw [← hr]; simp
          simp only [List.length_cons] at hlen hs
          omega
        calc countOcc t r ≤ countOcc t (replaceCore q w r) := ih r hrn
          _ ≤ countOcc t (w ++ replaceCore q w r) := countOcc_append_left_ge t w _
          _ = countOcc t (w ++ replaceCore q w ((c :: cs).drop q.length)) := by
              rw [hdrop]
      · rw [if_neg hg]
        rw [countOcc_cons, countOcc_cons]
        have htail : countOcc t cs ≤ countOcc t (replaceCore q w cs) :=
          ih cs (by simpa using hs)
        by_cases hh : t.isPrefixOf (c :: cs) = true
        · have hpre : t <+: c :: cs := (List.isPrefixOf_iff_prefix).mp hh
          obtain ⟨r, hr⟩ := hpre
          have hnoq : ∀ i, i < t.length → ¬ q <+: ((t ++ r).drop i) := by
            intro i hi hqpre
            rcases Nat.eq_zero_or_pos i with h0 | hipos
            · subst h0
              rw [List.drop_zero] at hqpre
              exact hne (bracket_head_eq hq ht hqpre).symm
            · exact bracket_inner_not hq ht hipos hi hqpre
          have hsplit : replaceCore q w (c :: cs) = t ++ replaceCore q w r := by
            rw [← hr]
            exact replaceCore_append_noEarly q w t r hnoq
          have hbranch : replaceCore q w (c :: cs) = c :: replaceCore q w cs := by
            rw [replaceCore_cons, if_neg hg]
          have hpre2 : t <+: c :: replaceCore q w cs := by
            rw [← hbranch, hsplit]
            exact List.prefix_append t _
          have hh2 : t.isPrefixOf (c :: replaceCore q w cs) = true :=
            (List.isPrefixOf_iff_prefix).mpr hpre2
          rw [if_pos hh, if_pos hh2]
          omega
        · rw [if_neg hh]
          by_cases h2 : t.isPrefixOf (c :: replaceCore q w cs) = true
          · rw [if_pos h2]; omega
          · rw [if_neg h2]; omega

/-- The full restoration loop never removes an occurrence of a
bracket-shaped token that is not one of the map's keys (key hygiene:
bracket-shaped keys). -/
theorem countOcc_restore_ge {t : List Char} (ht : bracketShaped t) :
    ∀ (m : List (List Char × List Char)) (out : List Char),
      (∀ pv ∈ m, bracketShaped pv.1 ∧ pv.1 ≠ t) →
      countOcc t out ≤ countOcc t (Restorer.restore out m) := by
  intro m
  induction m with
  | nil => intro out _; exact le_refl _
  | cons pv m' ih =>
    intro out hm
    have hstep : countOcc t out ≤ countOcc t (Restorer.restoreStep out pv) := by
      unfold Restorer.restoreStep
      by_cases hs : isSubstr pv.1 out = true
      · rw [if_pos hs]
        have hpv := hm pv (List.mem_cons_self pv m')
        unfold replace
        rw [if_neg hpv.1.not_nil]
        exact countOcc_replaceCore_ge pv.2 ht hpv.1 (Ne.symm hpv.2) out.length out
          (le_refl _)
      · rw [if_neg hs]
    have hrest := ih (Restorer.restoreStep out pv)
      (fun qv hqv => hm qv (List.mem_cons_of_mem pv hqv))
    have hfold : Restorer.restore out (pv :: m') =
        Restorer.restore (Restorer.restoreStep out pv) m' := rfl
    rw [hfold]
    exact le_trans hstep hrest

end PyStr

/-- An occurrence of a bracket-shaped token at the head of the text is
rewritten by the scan of `str.replace`, which then continues after it. -/
theorem replaceCore_at_head {p v : List Char} (hp : bracketShaped p)
    (B : List Char) :
    PyStr.replaceCore p v (p ++ B) = v ++ PyStr.replaceCore p v B := by
  rcases hcons : p with _ | ⟨c, ps⟩
  · exact absurd hcons hp.not_nil
  · rw [← hcons]
    have hshape : p ++ B = c :: (ps ++ B) := by rw [hcons]; simp
    rw [hshape, PyStr.replaceCore_cons]
    rw [if_pos ?_]
    · rw [← hshape, List.drop_left]
    · constructor
      · rw [hcons]; simp
      · rw [← hshape]
        exact (List.isPrefixOf_iff_prefix).mpr (List.prefix_append p B)

/-- An explicit occurrence of a bracket-shaped token after a token-free
part is rewritten by the scan of `str.replace`, which continues after
it. -/
theorem replaceCore_occ {p v : List Char} (hp : bracketShaped p)
    (A B : List Char) (hA : PyStr.NoOcc p A) :
    PyStr.replaceCore p v (A ++ p ++ B) = A ++ v ++ PyStr.replaceCore p v B := by
  rw [List.append_assoc, PyStr.replaceCore_append_noEarly p v A (p ++ B)
    (by
      intro i hi
      rw [← List.append_assoc]
      exact noOcc_before_block hp hp A B hA i hi)]
  rw [replaceCore_at_head hp B]
  simp

/-- `str.replace` rewrites *every* occurrence of a bracket-shaped token:
on a text written as its token-free segments around the occurrences of
`p`, each separator is replaced by the value and nothing else changes. -/
theorem replaceCore_sepJoin {p v : List Char} (hp : bracketShaped p) :
    ∀ ss : List (List Char), (∀ S ∈ ss, PyStr.NoOcc p S) →
      PyStr.replaceCore p v (sepJoin p ss) = sepJoin v ss := by
  intro ss
  induction ss with
  | nil => intro _; rfl
  | cons S ss ih =>
    intro h
    rcases ss with _ | ⟨S2, ss2⟩
    · exact PyStr.replaceCore_of_noOcc p v S (h S (List.mem_singleton.mpr rfl))
    · have h1 : sepJoin p (S :: S2 :: ss2) = S ++ p ++ sepJoin p (S2 :: ss2) := rfl
      have h2 : sepJoin v (S :: S2 :: ss2) = S ++ v ++ sepJoin v (S2 :: ss2) := rfl
      rw [h1, h2, replaceCore_occ hp S _ (h S (List.mem_cons_self S _))]
      rw [ih (fun T hT => h T (List.mem_cons_of_mem S hT))]

/-- One loop iteration of `Restorer.restore` on the entry `(p, v)`
replaces every occurrence of `p` in the current text by `v`: on the
segment decomposition at the occurrences of `p`, the separator changes
from `p` to `v` (the occurrence guard is true as soon as there are two
segments, and with a single segment there is nothing to replace on either
side). -/
theorem restoreStep_sepJoin {p v : List Char} (hp : bracketShaped p)
    (ss : List (List Char)) (hne : ss ≠ []) (h : ∀ S ∈ ss, PyStr.NoOcc p S) :
    Restorer.restoreStep (sepJoin p ss) (p, v) = sepJoin v ss := by
  show (if PyStr.isSubstr p (sepJoin p ss) then PyStr.replace (sepJoin p ss) p v
    else sepJoin p ss) = sepJoin v ss
  by_cases hs : PyStr.isSubstr p (sepJoin p ss) = true
  · rw [if_pos hs]
    unfold PyStr.replace
    rw [if_neg hp.not_nil, replaceCore_sepJoin hp ss h]
  · rw [if_neg hs]
    rcases ss with _ | ⟨S, ss1⟩
    · exact absurd rfl hne
    · rcases ss1 with _ | ⟨S2, ss2⟩
      · rfl
      · exfalso
        apply hs
        refine PyStr.isSubstr_true_of_occ S.length ?_
        have h1 : sepJoin p (S :: S2 :: ss2) = S ++ p ++ sepJoin p (S2 :: ss2) := rfl
        rw [h1, List.append_assoc, List.drop_left]
        exact List.prefix_append p _

/-- Every text decomposes into `p`-free segments around its occurrences
of a bracket-shaped `p` (explicit fuel: the recursion consumes at least
one character per step). -/
theorem sepJoin_decomp {p : List Char} (hp : bracketShaped p) :
    ∀ (n : Nat) (s : List Char), s.length ≤ n →
      ∃ ss : List (List Char),
        ss ≠ [] ∧ (∀ S ∈ ss, PyStr.NoOcc p S) ∧ s = sepJoin p ss := by
  intro n
  induction n with
  | zero =>
    intro s hs
    have hnil : s = [] := List.length_eq_zero.mp (Nat.le_zero.mp hs)
    subst hnil
    refine ⟨[[]], by simp, ?_, rfl⟩
    intro S hS
    have h1 := List.mem_singleton.mp hS
    subst h1
    intro i hp2
    rw [List.drop_nil] at hp2
    exact hp.not_nil (List.prefix_nil.mp hp2)
  | succ n ih =>
    intro s hs
    by_cases hpre : p.isPrefixOf s = true
    · obtain ⟨rest, hrest⟩ := (List.isPrefixOf_iff_prefix).mp hpre
      have hrl : rest.length ≤ n := by
        have h2 := hp.two_le
        have hlen : s.length = p.length + rest.length := by rw [← hrest]; simp
        omega
      obtain ⟨ss, hne, hfree, heq⟩ := ih rest hrl
      refine ⟨[] :: ss, by simp, ?_, ?_⟩
      · intro S hS
        rcases List.mem_cons.mp hS with h1 | h1
        · subst h1
          intro i hp2
          rw [List.drop_nil] at hp2
          exact hp.not_nil (List.prefix_nil.mp hp2)
        · exact hfree S h1
      · rcases ss with _ | ⟨S1, ss1⟩
        · exact absurd rfl hne
        · have h3 : sepJoin p ([] :: S1 :: ss1) =
              [] ++ p ++ sepJoin p (S1 :: ss1) := rfl
          rw [h3, ← heq, ← hrest]
          simp
    · rcases s with _ | ⟨c, cs⟩
      · refine ⟨[[]], by simp, ?_, rfl⟩
        intro S hS
        have h1 := List.mem_singleton.mp hS
        subst h1
        intro i hp2
        rw [List.drop_nil] at hp2
        exact hp.not_nil (List.prefix_nil.mp hp2)
      · obtain ⟨ss, hne, hfree, heq⟩ := ih cs (by simpa using hs)
        rcases ss with _ | ⟨S1, ss1⟩
        · exact absurd rfl hne
        · have hS1pre : S1 <+: cs := by
            rw [heq]
            rcases ss1 with _ | ⟨S2, ss2⟩
            · exact List.prefix_refl S1
            · have h3 : sepJoin p (S1 :: S2 :: ss2) =
                  S1 ++ (p ++ sepJoin p (S2 :: ss2)) := by
                rw [show sepJoin p (S1 :: S2 :: ss2) =
                  S1 ++ p ++ sepJoin p (S2 :: ss2) from rfl, List.append_assoc]
              rw [h3]
              exact List.prefix_append S1 _
          refine ⟨(c :: S1) :: ss1, by simp, ?_, ?_⟩
          · intro S hS
            rcases List.mem_cons.mp hS with h1 | h1
            · subst h1
              intro i hocc
              rcases i with _ | j
              · rw [List.drop_zero] at hocc
                apply hpre
                have hcons : c :: S1 <+: c :: cs := by
                  obtain ⟨t2, ht2⟩ := hS1pre
                  exact ⟨t2, by rw [List.cons_append, ht2]⟩
                exact (List.isPrefixOf_iff_prefix).mpr (hocc.trans hcons)
              · rw [List.drop_succ_cons] at hocc
                exact hfree S1 (List.mem_cons_self _ _) j hocc
            · exact hfree S (List.mem_cons_of_mem S1 h1)
          · rcases ss1 with _ | ⟨S2, ss2⟩
            · rw [heq]
              rfl
            · rw [heq]
              rw [show sepJoin p (S1 :: S2 :: ss2) =
                S1 ++ p ++ sepJoin p (S2 :: ss2) from rfl]
              rw [show sepJoin p ((c :: S1) :: S2 :: ss2) =
                (c :: S1) ++ p ++ sepJoin p (S2 :: ss2) from rfl]
              simp

/-- Closed form of the decomposition: every text splits into `p`-free
segments around its occurrences of `p`. -/
theorem sepJoin_decomp_exists {p : List Char} (hp : bracketShaped p)
    (s : List Char) :
    ∃ ss : List (List Char),
      ss ≠ [] ∧ (∀ S ∈ ss, PyStr.NoOcc p S) ∧ s = sepJoin p ss :=
  sepJoin_decomp hp s.length s (le_refl _)

/-- The hallucination list is exactly the placeholder-shaped tokens of the
output with no corresponding mapping key. -/
theorem hallucinated_mem (out : List Char) (keys : List (List Char))
    (t : List Char) :
    t ∈ ImageRestorer.hallucinated out keys ↔
      t ∈ ImageRestorer.scanTokens out ∧ t ∉ keys := by
  unfold ImageRestorer.hallucinated
  rw [List.mem_filter]
  simp

/-- C3 — Hallucination handling (classification spec-modelled): for every
output text and mapping, (1) when the restoration loop reaches a mapping
entry `(p, v)` with bracket-shaped key, *every* occurrence of `p` in the
text at that point is replaced by `v`: on the decomposition of the text
into `p`-free segments around its occurrences of `p`, the separator
changes from `p` to `v` and the loop continues on the rest of the map;
(2) every text admits such a decomposition, so (1) is about arbitrary
texts; (3) a bracket-shaped token that is not a key (all keys
bracket-shaped and distinct from it) is left unmodified — the loop never
removes an occurrence of it; (4) the hallucination pass classifies a
token as hallucinated exactly when it is a placeholder-shaped token of
the output with no corresponding mapping key; and in particular, on the
spec's example, mapping `{"[PERSON_A]": "Jane Doe"}` applied to
`"[PERSON_A] and [PERSON_B]"` restores to `"Jane Doe and [PERSON_B]"`,
classifies exactly `"[PERSON_B]"` as hallucinated, replaces every
occurrence of the mapped key (count 0 afterwards) and keeps the
hallucinated token (count 1). -/
theorem claim_C3 :
    (∀ (p v : List Char) (ss : List (List Char))
        (m₁ m₂ : List (List Char × List Char)) (out : List Char),
      bracketShaped p → ss ≠ [] → (∀ S ∈ ss, PyStr.NoOcc p S) →
      Restorer.restore out m₁ = sepJoin p ss →
      Restorer.restore out (m₁ ++ (p, v) :: m₂) =
        Restorer.restore (sepJoin v ss) m₂) ∧
    (∀ (p s : List Char), bracketShaped p →
      ∃ ss : List (List Char),
        ss ≠ [] ∧ (∀ S ∈ ss, PyStr.NoOcc p S) ∧ s = sepJoin p ss) ∧
    (∀ (out : List Char) (m : List (List Char × List Char)) (t : List Char),
      bracketShaped t → (∀ pv ∈ m, bracketShaped pv.1 ∧ pv.1 ≠ t) →
      PyStr.countOcc t out ≤ PyStr.countOcc t (Restorer.restore out m)) ∧
    (∀ (out : List Char) (keys : List (List Char)) (t : List Char),
      t ∈ ImageRestorer.hallucinated out keys ↔
        t ∈ ImageRestorer.scanTokens out ∧ t ∉ keys) ∧
    Restorer.restore (strL "[PERSON_A] and [PERSON_B]")
        [(strL "[PERSON_A]", strL "Jane Doe")] = strL "Jane Doe and [PERSON_B]" ∧
    ImageRestorer.hallucinated (strL "[PERSON_A] and [PERSON_B]")
        [strL "[PERSON_A]"] = [strL "[PERSON_B]"] ∧
    PyStr.countOcc (strL "[PERSON_A]") (strL "Jane Doe and [PERSON_B]") = 0 ∧
    PyStr.countOcc (strL "[PERSON_B]") (strL "Jane Doe and [PERSON_B]") = 1 :=
  ⟨fun p v ss m₁ m₂ out hp hne hfree hdecomp => by
      rw [Restorer.restore_append, hdecomp]
      show Restorer.restore (Restorer.restoreStep (sepJoin p ss) (p, v)) m₂ = _
      rw [restoreStep_sepJoin hp ss hne hfree],
   fun p s hp => sepJoin_decomp_exists hp s,
   fun out m t ht hm => PyStr.countOcc_restore_ge ht m out hm,
   fun out keys t => hallucinated_mem out keys t,
   by decide, by decide, by decide, by decide⟩

theorem claim_C3_witness :
    Restorer.restore (strL "[PERSON_A] and [PERSON_B]")
        ([] ++ (strL "[PERSON_A]", strL "Jane Doe") :: []) =
      Restorer.restore
        (sepJoin (strL "Jane Doe") [strL "", strL " and [PERSON_B]"]) [] :=
  claim_C3.1 (strL "[PERSON_A]") (strL "Jane Doe")
    [strL "", strL " and [PERSON_B]"] [] []
    (strL "[PERSON_A] and [PERSON_B]")
    ⟨strL "PERSON_A", by decide, by decide, by decide⟩
    (by decide)
    (fun S hS => by
      rcases List.mem_cons.mp hS with h1 | h1
      · subst h1
        exact (PyStr.isSubstr_false_iff _ _).mp (by decide)
      · have h2 := List.mem_singleton.mp h1
        subst h2
        exact (PyStr.isSubstr_false_iff _ _).mp (by decide))
    (by decide)

/-! ## The report of `Restorer.restore` (C7) -/

namespace Restorer

/-- The fold of `restoreReport` computes `restore` in its first component
and appends `reportList` to the accumulator in its second. -/
theorem foldl_report :
    ∀ (m : List (List Char × List Char)) (t : List Char) (u : List (List Char)),
      m.foldl
        (fun acc pv =>
          if PyStr.isSubstr pv.1 acc.1 then (PyStr.replace acc.1 pv.1 pv.2, acc.2)
          else (acc.1, acc.2 ++ [pv.1]))
        (t, u) = (restore t m, u ++ reportList t m) := by
  intro m
  induction m with
  | nil => intro t u; simp [restore, reportList]
  | cons pv m' ih =>
    intro t u
    simp only [List.foldl_cons]
    by_cases hs : PyStr.isSubstr pv.1 t = true
    · rw [if_pos hs]
      rw [ih (PyStr.replace t pv.1 pv.2) u]
      have h1 : restore t (pv :: m') = restore (PyStr.replace t pv.1 pv.2) m' := by
        show restore (restoreStep t pv) m' = _
        unfold restoreStep
        rw [if_pos hs]
      have h2 : reportList t (pv :: m') =
          reportList (PyStr.replace t pv.1 pv.2) m' := by
        simp only [reportList]
        rw [if_pos hs]
      rw [h1, h2]
    · rw [if_neg hs]
      rw [ih t (u ++ [pv.1])]
      have h1 : restore t (pv :: m') = restore t m' := by
        show restore (restoreStep t pv) m' = _
        unfold restoreStep
        rw [if_neg hs]
      have h2 : reportList t (pv :: m') = pv.1 :: reportList t m' := by
        simp only [reportList]
        rw [if_neg hs]
      rw [h1, h2]
      simp

theorem restoreReport_eq (out : List Char) (m : List (List Char × List Char)) :
    restoreReport out m = (restore out m, reportList out m) := by
  unfold restoreReport
  rw [foldl_report m out []]
  simp

theorem reportList_append :
    ∀ (m₁ m₂ : List (List Char × List Char)) (t : List Char),
      reportList t (m₁ ++ m₂) = reportList t m₁ ++ reportList (restore t m₁) m₂ := by
  intro m₁
  induction m₁ with
  | nil => intro m₂ t; simp [reportList, restore]
  | cons pv m' ih =>
    intro m₂ t
    rw [List.cons_append]
    simp only [reportList]
    by_cases hs : PyStr.isSubstr pv.1 t = true
    · rw [if_pos hs, if_pos hs, ih]
      have h1 : restore t (pv :: m') = restore (PyStr.replace t pv.1 pv.2) m' := by
        show restore (restoreStep t pv) m' = _
        unfold restoreStep
        rw [if_pos hs]
      rw [h1]
    · rw [if_neg hs, if_neg hs, ih]
      have h1 : restore t (pv :: m') = restore t m' := by
        show restore (restoreStep t pv) m' = _
        unfold restoreStep
        rw [if_neg hs]
      rw [h1, List.cons_append]

end Restorer

/-- C7 counterexample — as stated over the *original* output the claim is
false: the absence guard of `Restorer.restore` is evaluated against the
partially-restored text, not against the LLM output.  Placeholder
`"[B_A]"` does not occur in the output `"[A_A]"`, yet restoring with the
(insertion-ordered) map `{"[A_A]": "[B_A]x", "[B_A]": "v"}` rewrites it
(final text `"vx"`) and reports *no* placeholder as unused. -/
theorem claim_C7_cex :
    PyStr.isSubstr (strL "[B_A]") (strL "[A_A]") = false ∧
    Restorer.restoreReport (strL "[A_A]")
      [(strL "[A_A]", strL "[B_A]x"), (strL "[B_A]", strL "v")] =
      (strL "vx", []) := by
  decide

/-- C7 (amended) — unused-placeholder reporting, with absence read against
the text as restored so far: if the placeholder `p` of a map entry does not
occur in the text after the entries before it have been processed, then the
restoration result is exactly as if the entry were absent (the final text
is unchanged with respect to that entry), `p` is recorded in the
verified-but-unused report, and the run still succeeds with the reported
text equal to `Restorer.restore` (no error path exists). -/
theorem claim_C7 (out : List Char) (m₁ m₂ : List (List Char × List Char))
    (p v : List Char)
    (h : PyStr.isSubstr p (Restorer.restore out m₁) = false) :
    (Restorer.restoreReport out (m₁ ++ (p, v) :: m₂)).1 =
      (Restorer.restoreReport out (m₁ ++ m₂)).1 ∧
    p ∈ (Restorer.restoreReport out (m₁ ++ (p, v) :: m₂)).2 ∧
    (Restorer.restoreReport out (m₁ ++ (p, v) :: m₂)).1 =
      Restorer.restore out (m₁ ++ (p, v) :: m₂) := by
  have hstep : Restorer.restore (Restorer.restore out m₁) ((p, v) :: m₂) =
      Restorer.restore (Restorer.restore out m₁) m₂ := by
    show Restorer.restore
      (Restorer.restoreStep (Restorer.restore out m₁) (p, v)) m₂ = _
    unfold Restorer.restoreStep
    rw [if_neg (by simp [h])]
  refine ⟨?_, ?_, ?_⟩
  · rw [Restorer.restoreReport_eq, Restorer.restoreReport_eq]
    show Restorer.restore out (m₁ ++ (p, v) :: m₂) =
      Restorer.restore out (m₁ ++ m₂)
    rw [Restorer.restore_append, Restorer.restore_append, hstep]
  · rw [Restorer.restoreReport_eq]
    show p ∈ Restorer.reportList out (m₁ ++ (p, v) :: m₂)
    rw [Restorer.reportList_append]
    refine List.mem_append.mpr (Or.inr ?_)
    have h1 : Restorer.reportList (Restorer.restore out m₁) ((p, v) :: m₂) =
        p :: Restorer.reportList (Restorer.restore out m₁) m₂ := by
      simp only [Restorer.reportList]
      rw [if_neg (by simp [h])]
    rw [h1]
    exact List.mem_cons_self _ _
  · rw [Restorer.restoreReport_eq]

theorem claim_C7_witness :
    (Restorer.restoreReport (strL "hello")
        ([] ++ (strL "[EMAIL_A]", strL "a@b.c") :: [])).1 =
      (Restorer.restoreReport (strL "hello") ([] ++ [])).1 ∧
    strL "[EMAIL_A]" ∈ (Restorer.restoreReport (strL "hello")
        ([] ++ (strL "[EMAIL_A]", strL "a@b.c") :: [])).2 ∧
    (Restorer.restoreReport (strL "hello")
        ([] ++ (strL "[EMAIL_A]", strL "a@b.c") :: [])).1 =
      Restorer.restore (strL "hello") ([] ++ (strL "[EMAIL_A]", strL "a@b.c") :: []) :=
  claim_C7 (strL "hello") [] [] (strL "[EMAIL_A]") (strL "a@b.c") (by decide)

/-! ## The restorable policy of the restoration engine (C2) -/

namespace ImageRestorer

theorem restore_cons (output : List Char) (r : Mapping) (recs : List Mapping) :
    restore output (r :: recs) =
      restore
        (if r.restorable ∧ PyStr.isSubstr r.placeholder output then
          PyStr.replace output r.placeholder (r.entity.original_text.getD [])
        else output) recs := rfl

/-- Entries with `restorable = false` are inert: restoring with the full
record list equals restoring with the restorable records only. -/
theorem restore_filter :
    ∀ (recs : List Mapping) (output : List Char),
      restore output recs =
        restore output (recs.filter fun r => r.restorable) := by
  intro recs
  induction recs with
  | nil => intro output; rfl
  | cons r rest ih =>
    intro output
    rw [restore_cons]
    by_cases hr : r.restorable = true
    · have hf : (r :: rest).filter (fun r => r.restorable) =
          r :: rest.filter (fun r => r.restorable) := by
        simp [List.filter_cons, hr]
      rw [hf, restore_cons]
      exact ih _
    · have hg : ¬ (r.restorable = true ∧
          PyStr.isSubstr r.placeholder output = true) := fun hc => hr hc.1
      rw [if_neg hg]
      have hrf : r.restorable = false := Bool.eq_false_iff.mpr hr
      have hf : (r :: rest).filter (fun r => r.restorable) =
          rest.filter (fun r => r.restorable) := by
        simp [List.filter_cons, hrf]
      rw [hf]
      exact ih output

/-- Under key hygiene, the engine never removes an occurrence of the
placeholder of a non-restorable record. -/
theorem countOcc_restore_records_ge {t : List Char} (ht : bracketShaped t) :
    ∀ (recs : List Mapping) (output : List Char),
      (∀ r' ∈ recs, r'.restorable = true →
        bracketShaped r'.placeholder ∧ r'.placeholder ≠ t) →
      PyStr.countOcc t output ≤ PyStr.countOcc t (restore output recs) := by
  intro recs
  induction recs with
  | nil => intro output _; exact le_refl _
  | cons r rest ih =>
    intro output hm
    rw [restore_cons]
    have hstep : PyStr.countOcc t output ≤ PyStr.countOcc t
        (if r.restorable ∧ PyStr.isSubstr r.placeholder output then
          PyStr.replace output r.placeholder (r.entity.original_text.getD [])
        else output) := by
      by_cases hg : r.restorable = true ∧ PyStr.isSubstr r.placeholder output = true
      · rw [if_pos hg]
        have hr := hm r (List.mem_cons_self r rest) hg.1
        unfold PyStr.replace
        rw [if_neg hr.1.not_nil]
        exact PyStr.countOcc_replaceCore_ge _ ht hr.1 (Ne.symm hr.2) output.length
          output (le_refl _)
      · rw [if_neg hg]
    exact le_trans hstep
      (ih _ (fun r' hr' => hm r' (List.mem_cons_of_mem r hr')))

end ImageRestorer

/-- C2 — `restorable = false` entries are never rewritten by the
restoration engine, as policy (spec-modelled engine: `image/restorer.py`,
exported by `image/__init__.py`, is absent from `src/`; its pass is
modelled from the spec).  First, restoring with any record list equals
restoring with its restorable records only — non-restorable entries are
discarded by the policy guard itself, before any occurrence test.  Second,
the text matching such a placeholder is left untouched: under key hygiene
(restorable keys bracket-shaped and distinct from it), no occurrence of
the placeholder of a non-restorable record is ever removed. -/
theorem claim_C2 :
    (∀ (output : List Char) (recs : List Mapping),
      ImageRestorer.restore output recs =
        ImageRestorer.restore output (recs.filter fun r => r.restorable)) ∧
    (∀ (output : List Char) (recs : List Mapping) (r : Mapping),
      r ∈ recs → r.restorable = false → bracketShaped r.placeholder →
      (∀ r' ∈ recs, r'.restorable = true →
        bracketShaped r'.placeholder ∧ r'.placeholder ≠ r.placeholder) →
      PyStr.countOcc r.placeholder output ≤
        PyStr.countOcc r.placeholder (ImageRestorer.restore output recs)) :=
  ⟨fun output recs => ImageRestorer.restore_filter recs output,
   fun output recs r _ _ hbr hm =>
     ImageRestorer.countOcc_restore_records_ge hbr recs output hm⟩

theorem claim_C2_witness :
    PyStr.countOcc (strL "[FACE_A]") (strL "a [FACE_A] b") ≤
      PyStr.countOcc (strL "[FACE_A]")
        (ImageRestorer.restore (strL "a [FACE_A] b")
          [⟨strL "[FACE_A]",
            ⟨strL "FACE", strL "[FACE_A]", 1, strL "image", none, none, none⟩,
            false⟩]) :=
  claim_C2.2 (strL "a [FACE_A] b")
    [⟨strL "[FACE_A]",
      ⟨strL "FACE", strL "[FACE_A]", 1, strL "image", none, none, none⟩,
      false⟩]
    ⟨strL "[FACE_A]",
      ⟨strL "FACE", strL "[FACE_A]", 1, strL "image", none, none, none⟩,
      false⟩
    (List.mem_singleton.mpr rfl) rfl
    ⟨strL "FACE_A", by decide, by decide, by decide⟩
    (fun r' hr' htrue => by
      have h := List.mem_singleton.mp hr'
      subst h
      exact absurd htrue (by decide))
